import Mathlib

/-!
Verification of the boundary-to-patch topology resolver of the retopokill
repository (`src/retopoflow/rftool_autofill/autofill_utils.py`).

The Python source is shallowly embedded: float scalars become `ℚ`,
3D points become an abstract type `P` together with a segment-length
function `dist : P → P → ℚ` (embedding `(s0 - s1).length`) and a linear
interpolation `lerp : P → P → ℚ → P` (embedding `s0 + (s1 - s0) * t`);
mesh vertices are natural-number handles allocated from an arena that
embeds the host mesh context (`rfcontext`); fallible code (Python
`assert False`, uncaught index errors) returns `Option`.
-/

namespace Retopo

/-! ## Resampler (`restroke`, autofill_utils.py lines 412-434) -/

/-- `max(0, min(1, p))` from `stops = [max(0, min(1, p)) * total_len ...]`. -/
def clamp01 (p : ℚ) : ℚ := max 0 (min 1 p)

/-- The list `lens = [(s0 - s1).length for (s0, s1) in iter_pairs(stroke, wrap=False)]`:
consecutive segment lengths of the polyline, with `dist` embedding `(s0 - s1).length`. -/
def lensOf {P : Type} (dist : P → P → ℚ) (stroke : List P) : List ℚ :=
  (stroke.zip stroke.tail).map (fun ab => dist ab.1 ab.2)

/-- The `while istroke + 1 < len(stroke) and istop < len(stops)` loop of `restroke`.
The loop advances `istroke` or `istop` at every iteration, so
`len(stroke) + len(stops)` steps of fuel always suffice (proved below); the
fuel parameter only makes the recursion structural. -/
def restrokeAux {P : Type} [Inhabited P] (lerp : P → P → ℚ → P)
    (stroke : List P) (lens stops : List ℚ) :
    Nat → Nat → Nat → ℚ → List P
  | 0, _, _, _ => []
  | fuel + 1, istroke, istop, d =>
    if istroke + 1 < stroke.length ∧ istop < stops.length then
      if lens.getD istroke 0 ≤ 0 then
        -- `if lens[istroke] <= 0: istroke += 1; continue`
        restrokeAux lerp stroke lens stops fuel (istroke + 1) istop d
      else
        -- `t = (stops[istop] - dist) / lens[istroke]`
        let t := (stops.getD istop 0 - d) / lens.getD istroke 0
        if t < 0 then
          -- `if t < 0: istop += 1`
          restrokeAux lerp stroke lens stops fuel istroke (istop + 1) d
        else if (1.000001 : ℚ) < t then
          -- `elif t > 1.000001: dist += lens[istroke]; istroke += 1`
          restrokeAux lerp stroke lens stops fuel (istroke + 1) istop (d + lens.getD istroke 0)
        else
          -- `else: nstroke.append(s0 + (s1 - s0) * t); istop += 1`
          lerp (stroke.getD istroke default) (stroke.getD (istroke + 1) default) t ::
            restrokeAux lerp stroke lens stops fuel istroke (istop + 1) d
    else []

/-- `restroke(stroke, percentages)` (autofill_utils.py lines 412-434). -/
def restroke {P : Type} [Inhabited P] (dist : P → P → ℚ) (lerp : P → P → ℚ → P)
    (stroke : List P) (percentages : List ℚ) : List P :=
  let lens := lensOf dist stroke
  let total_len := lens.sum
  let stops := percentages.map (fun p => clamp01 p * total_len)
  restrokeAux lerp stroke lens stops (stroke.length + percentages.length) 0 0 0

/-- Concrete 1-dimensional instantiation of the point geometry, used to run the
resampler on explicit inputs: `|a - b|` is the segment length. -/
def Qdist (a b : ℚ) : ℚ := |a - b|

/-- Concrete 1-dimensional linear interpolation `s0 + (s1 - s0) * t`. -/
def Qlerp (a b t : ℚ) : ℚ := a + (b - a) * t

/-- Loop invariant argument for the resampler: with nonnegative segment lengths,
non-decreasing stops that do not exceed the total length, accumulated distance
equal to the prefix sum of the consumed segments, the current stop not behind the
accumulated distance, and some positive length remaining, the loop emits exactly
one point per remaining stop. -/
theorem restrokeAux_length {P : Type} [Inhabited P] (lerp : P → P → ℚ → P)
    (stroke : List P) (lens stops : List ℚ)
    (hlen : lens.length + 1 = stroke.length)
    (hnn : ∀ x ∈ lens, 0 ≤ x)
    (hsort : stops.Pairwise (· ≤ ·))
    (hub : ∀ s ∈ stops, s ≤ lens.sum) :
    ∀ (fuel istroke istop : Nat) (d : ℚ),
      stroke.length - istroke + (stops.length - istop) ≤ fuel →
      d = (lens.take istroke).sum →
      (istop < stops.length → d ≤ stops.getD istop 0) →
      (istop < stops.length → 0 < (lens.drop istroke).sum) →
      (restrokeAux lerp stroke lens stops fuel istroke istop d).length
        = stops.length - istop := by
  intro fuel
  induction fuel with
  | zero =>
    intro istroke istop d hf _hd _hds _hpos
    simp only [restrokeAux, List.length_nil]
    omega
  | succ fuel ih =>
    intro istroke istop d hf hd hds hpos
    by_cases hguard : istroke + 1 < stroke.length ∧ istop < stops.length
    · obtain ⟨hg1, hg2⟩ := hguard
      have histroke : istroke < lens.length := by omega
      have hgetD : lens.getD istroke 0 = lens[istroke] := List.getD_eq_getElem lens 0 histroke
      have hmem : lens.getD istroke 0 ∈ lens := by rw [hgetD]; exact List.getElem_mem histroke
      have htake : (lens.take (istroke + 1)).sum
          = (lens.take istroke).sum + lens.getD istroke 0 := by
        rw [List.take_succ, List.sum_append, List.getElem?_eq_getElem histroke, hgetD]
        simp
      have hdrop : (lens.drop istroke).sum
          = lens.getD istroke 0 + (lens.drop (istroke + 1)).sum := by
        rw [List.drop_eq_getElem_cons histroke, List.sum_cons, hgetD]
      by_cases hL : lens.getD istroke 0 ≤ 0
      · -- zero-length segment skipped
        have hL0 : lens.getD istroke 0 = 0 := le_antisymm hL (hnn _ hmem)
        rw [restrokeAux, if_pos ⟨hg1, hg2⟩, if_pos hL]
        apply ih
        · omega
        · rw [hd, htake, hL0, add_zero]
        · exact hds
        · intro h
          have := hpos h
          rw [hdrop, hL0, zero_add] at this
          exact this
      · push_neg at hL
        have hdsle := hds hg2
        by_cases ht0 : (stops.getD istop 0 - d) / lens.getD istroke 0 < 0
        · exfalso
          have h1 : 0 ≤ stops.getD istop 0 - d := by linarith
          have h2 : 0 ≤ (stops.getD istop 0 - d) / lens.getD istroke 0 :=
            div_nonneg h1 (le_of_lt hL)
          linarith
        · by_cases htb : (1.000001 : ℚ) < (stops.getD istop 0 - d) / lens.getD istroke 0
          · -- stop is beyond this segment: advance istroke
            have hmul : (1.000001 : ℚ) * lens.getD istroke 0 < stops.getD istop 0 - d :=
              (lt_div_iff₀ hL).mp htb
            have hsplit : (1.000001 : ℚ) * lens.getD istroke 0
                = lens.getD istroke 0 + (0.000001 : ℚ) * lens.getD istroke 0 := by ring
            have hfrac : (0 : ℚ) < (0.000001 : ℚ) * lens.getD istroke 0 := by positivity
            have hubcur : stops.getD istop 0 ≤ lens.sum := by
              apply hub
              rw [List.getD_eq_getElem stops 0 hg2]
              exact List.getElem_mem hg2
            have hsum : (lens.take istroke).sum + (lens.drop istroke).sum = lens.sum :=
              List.sum_take_add_sum_drop lens istroke
            rw [restrokeAux, if_pos ⟨hg1, hg2⟩, if_neg (not_le.mpr hL)]
            simp only [if_neg ht0, if_pos htb]
            apply ih
            · omega
            · rw [hd, htake]
            · intro _
              rw [hd]
              rw [hd] at hmul
              linarith
            · intro _
              rw [hd] at hmul
              rw [hdrop] at hsum
              linarith
          · -- emit one interpolated point for the current stop
            rw [restrokeAux, if_pos ⟨hg1, hg2⟩, if_neg (not_le.mpr hL)]
            simp only [if_neg ht0, if_neg htb, List.length_cons]
            rw [ih istroke (istop + 1) d (by omega) hd ?_ ?_]
            · omega
            · intro h
              have hstep : stops.getD istop 0 ≤ stops.getD (istop + 1) 0 := by
                rw [List.getD_eq_getElem _ _ hg2, List.getD_eq_getElem _ _ h]
                exact List.pairwise_iff_get.mp hsort ⟨istop, hg2⟩ ⟨istop + 1, h⟩
                  (by simp)
              linarith
            · intro _
              exact hpos hg2
    · rw [restrokeAux, if_neg hguard]
      simp only [List.length_nil]
      rcases not_and_or.mp hguard with h | h
      · by_cases h2 : istop < stops.length
        · exfalso
          have := hpos h2
          rw [List.drop_eq_nil_of_le (by omega)] at this
          simp at this
        · omega
      · omega

/-- For a polyline with at least 2 points, positive total length, a nonnegative
length function, and non-decreasing fractions, `restroke` emits exactly one point
per fraction. -/
theorem restroke_length_of_sorted {P : Type} [Inhabited P]
    (dist : P → P → ℚ) (lerp : P → P → ℚ → P)
    (stroke : List P) (fracs : List ℚ)
    (h2 : 2 ≤ stroke.length)
    (hdist : ∀ a b, 0 ≤ dist a b)
    (hpos : 0 < (lensOf dist stroke).sum)
    (hsort : fracs.Pairwise (· ≤ ·)) :
    (restroke dist lerp stroke fracs).length = fracs.length := by
  unfold restroke
  have hlens_nn : ∀ x ∈ lensOf dist stroke, 0 ≤ x := by
    intro x hx
    obtain ⟨ab, _, rfl⟩ := List.mem_map.mp hx
    exact hdist _ _
  have hlen : (lensOf dist stroke).length + 1 = stroke.length := by
    unfold lensOf
    rw [List.length_map, List.length_zip, List.length_tail]
    omega
  have := restrokeAux_length lerp stroke (lensOf dist stroke)
    (fracs.map (fun p => clamp01 p * (lensOf dist stroke).sum)) hlen hlens_nn
    ?_ ?_ (stroke.length + fracs.length) 0 0 0 ?_ ?_ ?_ ?_
  · rw [this]
    simp
  · -- stops are sorted because `clamp01 · * total` is monotone
    apply List.Pairwise.map
    · intro a b hab
      have h1 : clamp01 a ≤ clamp01 b := by
        unfold clamp01
        exact max_le_max le_rfl (min_le_min le_rfl hab)
      exact mul_le_mul_of_nonneg_right h1 (le_of_lt hpos)
    · exact hsort
  · -- stops are bounded by the total length
    intro s hs
    obtain ⟨p, _, rfl⟩ := List.mem_map.mp hs
    have h1 : clamp01 p ≤ 1 := by
      unfold clamp01
      apply max_le
      · linarith
      · exact min_le_left _ _
    calc clamp01 p * (lensOf dist stroke).sum
        ≤ 1 * (lensOf dist stroke).sum := mul_le_mul_of_nonneg_right h1 (le_of_lt hpos)
      _ = (lensOf dist stroke).sum := one_mul _
  · simp
  · simp
  · intro h
    simp only [List.length_map] at h
    have h0 : 0 < fracs.length := h
    rw [List.getD_eq_getElem _ 0 (by simpa using h0)]
    simp only [List.getElem_map]
    have : 0 ≤ clamp01 fracs[0] := le_max_left _ _
    positivity
  · intro _
    simpa using hpos

/-- C3: the claim as stated is false. For the 3-point polyline `[0, 1, 2]`
(positive total length) and the unsorted fraction list `[1, 0]`, `restroke`
emits only one point: after the fraction `1` is served on the last segment, the
accumulated distance is already past the stop for fraction `0`, so the
`t < 0 : istop += 1` branch drops it without emitting. Output count 1 ≠ 2. -/
theorem restroke_count_counterexample :
    2 ≤ ([(0 : ℚ), 1, 2] : List ℚ).length ∧
    0 < (lensOf Qdist [(0 : ℚ), 1, 2]).sum ∧
    (restroke Qdist Qlerp [(0 : ℚ), 1, 2] [1, 0]).length ≠ ([(1 : ℚ), 0] : List ℚ).length := by
  refine ⟨by norm_num, by norm_num [lensOf, Qdist], ?_⟩
  norm_num [restroke, restrokeAux, lensOf, clamp01, Qdist, Qlerp, abs_of_nonneg, abs_of_nonpos]

/-- C3 (amended): for every polyline with at least 2 points and positive total
arclength (with nonnegative segment lengths), and every NON-DECREASING list of
target fractions, `restroke` produces exactly one output point per fraction. -/
theorem restroke_one_point_per_sorted_fraction {P : Type} [Inhabited P]
    (dist : P → P → ℚ) (lerp : P → P → ℚ → P)
    (stroke : List P) (fracs : List ℚ)
    (h2 : 2 ≤ stroke.length)
    (hdist : ∀ a b, 0 ≤ dist a b)
    (hpos : 0 < (lensOf dist stroke).sum)
    (hsort : fracs.Pairwise (· ≤ ·)) :
    (restroke dist lerp stroke fracs).length = fracs.length :=
  restroke_length_of_sorted dist lerp stroke fracs h2 hdist hpos hsort

/-- Witness for the amended C3 at a concrete input. -/
theorem restroke_one_point_per_sorted_fraction_witness :
    (restroke Qdist Qlerp [(0 : ℚ), 1, 2] [0, 1/2, 1]).length
      = ([(0 : ℚ), 1/2, 1] : List ℚ).length :=
  restroke_one_point_per_sorted_fraction Qdist Qlerp [(0 : ℚ), 1, 2] [0, 1/2, 1]
    (by norm_num) (fun a b => abs_nonneg _) (by norm_num [lensOf, Qdist])
    (by norm_num [List.pairwise_cons])

/-- C4: the claim as stated is false. Clamping does hold, but the second
conjunct — `restroke(P, [0, 1]) = [P[0], P[-1]]` for EVERY polyline with ≥ 2
points and positive total length — fails: on `[0, 1, 1 - 1/2000000]` the stop
for fraction `1` is served on the FIRST segment because the leftover length
`1/2000000` keeps `t = 1.0000005` inside the `t ≤ 1.000001` tolerance, so the
emitted point `1.0000005` is an overshoot past the segment, not the last
polyline point `0.9999995`. -/
theorem restroke_endpoints_counterexample :
    2 ≤ ([(0 : ℚ), 1, 1 - 1/2000000] : List ℚ).length ∧
    0 < (lensOf Qdist [(0 : ℚ), 1, 1 - 1/2000000]).sum ∧
    restroke Qdist Qlerp [(0 : ℚ), 1, 1 - 1/2000000] [0, 1]
      ≠ [([(0 : ℚ), 1, 1 - 1/2000000] : List ℚ).headD 0,
         ([(0 : ℚ), 1, 1 - 1/2000000] : List ℚ).getLastD 0] := by
  refine ⟨by norm_num, by norm_num [lensOf, Qdist]; positivity, ?_⟩
  norm_num [restroke, restrokeAux, lensOf, clamp01, Qdist, Qlerp, abs_of_nonneg, abs_of_nonpos]

/-- C4 (amended): fractions are clamped into `[0, 1]` before use — for EVERY
polyline, `restroke(P, [-1, 2])` equals `restroke(P, [0, 1])` — and for a
polyline with exactly 2 points and positive length, `restroke(P, [0, 1])`
returns exactly `[P[0], P[-1]]` (the endpoint-recovery part does not extend to
longer polylines, by the counterexample). -/
theorem restroke_clamps_fractions {P : Type} [Inhabited P]
    (dist : P → P → ℚ) (lerp : P → P → ℚ → P) (stroke : List P) :
    restroke dist lerp stroke [-1, 2] = restroke dist lerp stroke [0, 1] ∧
    (∀ a b : P, 0 < dist a b → lerp a b 0 = a → lerp a b 1 = b →
      restroke dist lerp [a, b] [0, 1] = [a, b]) := by
  constructor
  · unfold restroke
    norm_num [clamp01]
  · intro a b hab h0 h1
    have hne : dist a b ≠ 0 := ne_of_gt hab
    unfold restroke lensOf
    norm_num [restrokeAux, clamp01, hab.not_le, div_self hne, h0, h1]

/-- Witness for the amended C4 at a concrete input. -/
theorem restroke_clamps_fractions_witness :
    restroke Qdist Qlerp [(0 : ℚ), 2] [-1, 2] = restroke Qdist Qlerp [(0 : ℚ), 2] [0, 1] ∧
    restroke Qdist Qlerp [(0 : ℚ), 2] [0, 1] = [0, 2] :=
  ⟨(restroke_clamps_fractions Qdist Qlerp [(0 : ℚ), 2]).1,
   (restroke_clamps_fractions Qdist Qlerp [(0 : ℚ), 2]).2 0 2
     (by norm_num [Qdist]) (by norm_num [Qlerp]) (by norm_num [Qlerp])⟩

/-! ## Side (autofill_utils.py lines 89-156)

A `Side` is an ordered, directed chain of mesh-vertex handles; handles are
natural numbers into the arena embedding the host mesh. -/

/-- `Side.verts`, a list of vertex handles. -/
structure Side where
  verts : List Nat
  deriving DecidableEq, Repr

instance : Inhabited Side := ⟨⟨[]⟩⟩

namespace Side

/-- `self.verts[0]` (sides always have ≥ 2 vertices in valid states). -/
def hd (s : Side) : Nat := s.verts.headD 0

/-- `self.verts[-1]`. -/
def lst (s : Side) : Nat := s.verts.getLastD 0

/-- `shares_endpoint_with` (line 140-141). -/
def shares_endpoint_with (s o : Side) : Bool :=
  s.hd == o.hd || s.hd == o.lst || s.lst == o.hd || s.lst == o.lst

/-- `merge` (lines 143-153). The `assert False, 'sides do not share an
endpoint'` branch is embedded as `none`. -/
def merge (s o : Side) : Option Side :=
  if s.hd = o.hd then some ⟨o.verts.reverse ++ s.verts.tail⟩
  else if s.hd = o.lst then some ⟨o.verts ++ s.verts.tail⟩
  else if s.lst = o.hd then some ⟨s.verts.dropLast ++ o.verts⟩
  else if s.lst = o.lst then some ⟨s.verts.dropLast ++ o.verts.reverse⟩
  else none

end Side

/-- A nonempty side's vertex list starts with its head endpoint. -/
theorem Side.verts_eq_head_cons (s : Side) (h : s.verts ≠ []) :
    s.verts = s.hd :: s.verts.tail := by
  cases hv : s.verts with
  | nil => exact absurd hv h
  | cons a l => simp [Side.hd, hv]

/-- A nonempty side's vertex list ends with its last endpoint. -/
theorem Side.verts_eq_dropLast_concat (s : Side) (h : s.verts ≠ []) :
    s.verts = s.verts.dropLast ++ [s.lst] := by
  have := List.dropLast_concat_getLast h
  rw [Side.lst, List.getLastD_eq_getLast?, List.getLast?_eq_getLast _ h]
  simp [this]

/-- The head endpoint is a vertex of the side. -/
theorem Side.hd_mem (s : Side) (h : s.verts ≠ []) : s.hd ∈ s.verts := by
  rw [s.verts_eq_head_cons h]
  exact List.mem_cons_self _ _

/-- The last endpoint is a vertex of the side. -/
theorem Side.lst_mem (s : Side) (h : s.verts ≠ []) : s.lst ∈ s.verts := by
  rw [s.verts_eq_dropLast_concat h]
  exact List.mem_append_right _ (List.mem_singleton.mpr rfl)

/-- `insert a t ∪ u = t ∪ u` when `a` already lies in `u`. -/
theorem union_absorb_left {a : ℕ} {t u : Finset ℕ} (h : a ∈ u) :
    insert a t ∪ u = t ∪ u := by
  rw [Finset.insert_union, Finset.insert_eq_self.mpr (Finset.mem_union_right _ h)]

/-- `(t ∪ {a}) ∪ u = t ∪ u` when `a` already lies in `u`. -/
theorem union_absorb_right {a : ℕ} {t u : Finset ℕ} (h : a ∈ u) :
    (t ∪ {a}) ∪ u = t ∪ u := by
  rw [Finset.union_assoc, Finset.union_eq_right.mpr (Finset.singleton_subset_iff.mpr h)]

/-- Whenever `merge` succeeds, the merged side's vertex set is the union of the
two sides' vertex sets (the dropped duplicate endpoint is supplied by the other
side). -/
theorem Side.merge_toFinset (s o C : Side) (hs : s.verts ≠ []) (ho : o.verts ≠ [])
    (h : s.merge o = some C) :
    C.verts.toFinset = s.verts.toFinset ∪ o.verts.toFinset := by
  unfold Side.merge at h
  split_ifs at h with h1 h2 h3 h4
  · injection h with h
    subst h
    have hm : s.hd ∈ o.verts := h1 ▸ o.hd_mem ho
    show (o.verts.reverse ++ s.verts.tail).toFinset = _
    conv_rhs => rw [s.verts_eq_head_cons hs]
    rw [List.toFinset_append, List.toFinset_reverse, List.toFinset_cons,
      union_absorb_left (List.mem_toFinset.mpr hm), Finset.union_comm]
  · injection h with h
    subst h
    have hm : s.hd ∈ o.verts := h2 ▸ o.lst_mem ho
    show (o.verts ++ s.verts.tail).toFinset = _
    conv_rhs => rw [s.verts_eq_head_cons hs]
    rw [List.toFinset_append, List.toFinset_cons,
      union_absorb_left (List.mem_toFinset.mpr hm), Finset.union_comm]
  · injection h with h
    subst h
    have hm : s.lst ∈ o.verts := h3 ▸ o.hd_mem ho
    show (s.verts.dropLast ++ o.verts).toFinset = _
    conv_rhs => rw [s.verts_eq_dropLast_concat hs]
    simp only [List.toFinset_append]
    have hsing : ([s.lst] : List ℕ).toFinset = {s.lst} := by simp
    rw [hsing, union_absorb_right (List.mem_toFinset.mpr hm)]
  · injection h with h
    subst h
    have hm : s.lst ∈ o.verts := h4 ▸ o.lst_mem ho
    show (s.verts.dropLast ++ o.verts.reverse).toFinset = _
    conv_rhs => rw [s.verts_eq_dropLast_concat hs]
    simp only [List.toFinset_append, List.toFinset_reverse]
    have hsing : ([s.lst] : List ℕ).toFinset = {s.lst} := by simp
    rw [hsing, union_absorb_right (List.mem_toFinset.mpr hm)]

/-- If two sides share an endpoint, `merge` succeeds. -/
theorem Side.merge_isSome_of_shares (s o : Side)
    (h : s.shares_endpoint_with o = true) : ∃ C, s.merge o = some C := by
  unfold Side.shares_endpoint_with at h
  unfold Side.merge
  by_cases h1 : s.hd = o.hd
  · exact ⟨_, by rw [if_pos h1]⟩
  · by_cases h2 : s.hd = o.lst
    · exact ⟨_, by rw [if_neg h1, if_pos h2]⟩
    · by_cases h3 : s.lst = o.hd
      · exact ⟨_, by rw [if_neg h1, if_neg h2, if_pos h3]⟩
      · by_cases h4 : s.lst = o.lst
        · exact ⟨_, by rw [if_neg h1, if_neg h2, if_neg h3, if_pos h4]⟩
        · simp [h1, h2, h3, h4] at h

/-- `shares_endpoint_with` is symmetric. -/
theorem Side.shares_comm (s o : Side)
    (h : s.shares_endpoint_with o = true) : o.shares_endpoint_with s = true := by
  unfold Side.shares_endpoint_with at h ⊢
  simp only [Bool.or_eq_true, beq_iff_eq] at h ⊢
  tauto

/-- C6: `Side.merge` on two sides (each with ≥ 2 vertices) that do not share an
endpoint is a fatal assertion failure (embedded as `none`), never silently
tolerated; on two sides that do share an endpoint it succeeds and returns one
of the four concatenations, reversing one side's vertex order as needed. -/
theorem merge_requires_shared_endpoint (A B : Side)
    (hA : 2 ≤ A.verts.length) (hB : 2 ≤ B.verts.length) :
    (A.shares_endpoint_with B = false → A.merge B = none) ∧
    (A.shares_endpoint_with B = true → ∃ C, A.merge B = some C ∧
      (C.verts = B.verts.reverse ++ A.verts.tail ∨
       C.verts = B.verts ++ A.verts.tail ∨
       C.verts = A.verts.dropLast ++ B.verts ∨
       C.verts = A.verts.dropLast ++ B.verts.reverse)) := by
  constructor
  · intro h
    unfold Side.shares_endpoint_with at h
    simp only [Bool.or_eq_false_iff, beq_eq_false_iff_ne, ne_eq] at h
    obtain ⟨⟨⟨h1, h2⟩, h3⟩, h4⟩ := h
    unfold Side.merge
    rw [if_neg h1, if_neg h2, if_neg h3, if_neg h4]
  · intro h
    obtain ⟨C, hC⟩ := Side.merge_isSome_of_shares A B h
    refine ⟨C, hC, ?_⟩
    unfold Side.merge at hC
    split_ifs at hC
    · injection hC with hC; subst hC; simp
    · injection hC with hC; subst hC; simp
    · injection hC with hC; subst hC; simp
    · injection hC with hC; subst hC; simp

/-- Witness for C6 at a concrete input: sides `[0,1]` and `[1,2]` share
endpoint `1`, and the merge succeeds with one of the stated concatenations. -/
theorem merge_requires_shared_endpoint_witness :
    ((Side.mk [0, 1]).shares_endpoint_with (Side.mk [1, 2]) = false →
      (Side.mk [0, 1]).merge (Side.mk [1, 2]) = none) ∧
    ((Side.mk [0, 1]).shares_endpoint_with (Side.mk [1, 2]) = true →
      ∃ C, (Side.mk [0, 1]).merge (Side.mk [1, 2]) = some C ∧
        (C.verts = (Side.mk [1, 2]).verts.reverse ++ (Side.mk [0, 1]).verts.tail ∨
         C.verts = (Side.mk [1, 2]).verts ++ (Side.mk [0, 1]).verts.tail ∨
         C.verts = (Side.mk [0, 1]).verts.dropLast ++ (Side.mk [1, 2]).verts ∨
         C.verts = (Side.mk [0, 1]).verts.dropLast ++ (Side.mk [1, 2]).verts.reverse)) :=
  merge_requires_shared_endpoint (Side.mk [0, 1]) (Side.mk [1, 2])
    (by decide) (by decide)

/-- C7: for sides sharing an endpoint, `merge(A,B)` and `merge(B,A)` both
succeed and produce sides with identical vertex sets, namely the union of the
two sides' vertex sets. -/
theorem merge_commutes_on_vertex_sets (A B : Side)
    (hA : A.verts ≠ []) (hB : B.verts ≠ [])
    (hshare : A.shares_endpoint_with B = true) :
    ∃ C D, A.merge B = some C ∧ B.merge A = some D ∧
      C.verts.toFinset = D.verts.toFinset ∧
      C.verts.toFinset = A.verts.toFinset ∪ B.verts.toFinset := by
  obtain ⟨C, hC⟩ := Side.merge_isSome_of_shares A B hshare
  obtain ⟨D, hD⟩ := Side.merge_isSome_of_shares B A (Side.shares_comm A B hshare)
  refine ⟨C, D, hC, hD, ?_, ?_⟩
  · rw [Side.merge_toFinset A B C hA hB hC, Side.merge_toFinset B A D hB hA hD,
      Finset.union_comm]
  · exact Side.merge_toFinset A B C hA hB hC

/-- Witness for C7 at a concrete input. -/
theorem merge_commutes_on_vertex_sets_witness :
    ∃ C D, (Side.mk [0, 1]).merge (Side.mk [1, 2]) = some C ∧
      (Side.mk [1, 2]).merge (Side.mk [0, 1]) = some D ∧
      C.verts.toFinset = D.verts.toFinset ∧
      C.verts.toFinset = (Side.mk [0, 1]).verts.toFinset ∪ (Side.mk [1, 2]).verts.toFinset :=
  merge_commutes_on_vertex_sets (Side.mk [0, 1]) (Side.mk [1, 2])
    (by decide) (by decide) (by decide)

/-! ## order_sides and AutofillPatch (autofill_utils.py lines 158-193) -/

/-- Python `list.remove` under `Side.__eq__` (vertex-SET equality, line 155-156):
drop the first element whose vertex set matches `x`'s. In `order_sides` the
removed element is always present, so the missing-element `ValueError` cannot
fire. -/
def removeSetEq (x : Side) : List Side → List Side
  | [] => []
  | s :: rest =>
    if s.verts.toFinset = x.verts.toFinset then rest else s :: removeSetEq x rest

/-- The `for i in range(len(sides))` search inside `order_sides` (lines
172-181): find the first side whose start (or, reversing it in place, whose
end) continues `curr`, i.e. equals `curr.verts[-1]`. -/
def findCont (curr : Side) : List Side → Option Side
  | [] => none
  | s :: rest =>
    if curr.lst = s.hd then some s
    else if curr.lst = s.lst then some ⟨s.verts.reverse⟩
    else findCont curr rest

/-- The `while True` loop of `order_sides` (lines 170-186): `acc` is
`ordered_sides` just before the iteration appends `curr`; the `for ... else:
assert False` branch is embedded as `none`. Each successful iteration removes
one side from `sides`, so `len(sides)` iterations of fuel always suffice. -/
def orderSidesAux (first : Side) : Nat → Side → List Side → List Side → Option (List Side)
  | 0, _, _, _ => none
  | fuel + 1, curr, sides, acc =>
    match findCont curr sides with
    | none => none
    | some nxt =>
      let sides' := removeSetEq nxt sides
      if nxt.lst = first.hd then some ((acc ++ [curr]) ++ [nxt])
      else orderSidesAux first fuel nxt sides' (acc ++ [curr])

/-- `order_sides` (lines 163-187): `curr = sides[0]; sides.remove(curr)`, then
the chaining loop. An empty input (IndexError on `sides[0]`) is embedded as
`none`. -/
def order_sides : List Side → Option (List Side)
  | [] => none
  | s :: rest => orderSidesAux s (rest.length + 1) s (removeSetEq s (s :: rest)) []

/-- `AutofillPatch` restricted to its topological payload: the CCW-ordered
sides computed by `order_sides`. (`load`, the network fetch of expanded
patterns, and their drawing are the external pattern-generation service and
host-mesh interfaces; the pattern cache itself is modelled separately below.) -/
structure AutofillPatch where
  sides : List Side
  deriving DecidableEq

/-- Reversing a side's vertex list swaps its endpoints (head). -/
theorem Side.hd_reverse (s : Side) : (Side.mk s.verts.reverse).hd = s.lst := by
  unfold Side.hd Side.lst
  rw [List.headD_eq_head?, List.head?_reverse, List.getLastD_eq_getLast?]

/-- Reversing a side's vertex list swaps its endpoints (last). -/
theorem Side.lst_reverse (s : Side) : (Side.mk s.verts.reverse).lst = s.hd := by
  unfold Side.hd Side.lst
  rw [List.getLastD_eq_getLast?, List.getLast?_reverse, List.headD_eq_head?]

/-- If exactly one side of `l` touches `curr`'s end vertex, the `order_sides`
search finds that side, oriented to continue the chain. -/
theorem findCont_spec (curr t : Side) :
    ∀ l : List Side, t ∈ l →
      (curr.lst = t.hd ∨ curr.lst = t.lst) →
      (∀ s ∈ l, s ≠ t → curr.lst ≠ s.hd ∧ curr.lst ≠ s.lst) →
      findCont curr l = some (if curr.lst = t.hd then t else Side.mk t.verts.reverse) := by
  intro l
  induction l with
  | nil => intro h; exact absurd h (List.not_mem_nil t)
  | cons s rest ih =>
    intro hmem hend huniq
    by_cases hst : s = t
    · subst hst
      unfold findCont
      by_cases h1 : curr.lst = s.hd
      · rw [if_pos h1, if_pos h1]
      · rw [if_neg h1, if_pos (hend.resolve_left h1), if_neg h1]
    · have hne := huniq s (List.mem_cons_self s rest) hst
      unfold findCont
      rw [if_neg hne.1, if_neg hne.2]
      exact ih ((List.mem_cons.mp hmem).resolve_left (fun h => hst h.symm))
        hend (fun s' hs' => huniq s' (List.mem_cons_of_mem s hs'))

/-- When vertex-set equality distinguishes `t` inside `l`, Python's
`sides.remove` (set-based equality) removes exactly `t`. -/
theorem removeSetEq_spec (x t : Side) (hx : x.verts.toFinset = t.verts.toFinset) :
    ∀ l : List Side, (∀ s ∈ l, s.verts.toFinset = t.verts.toFinset → s = t) →
      t ∈ l → removeSetEq x l = l.erase t := by
  intro l
  induction l with
  | nil => intro _ h; exact absurd h (List.not_mem_nil t)
  | cons s rest ih =>
    intro huniq hmem
    by_cases hset : s.verts.toFinset = x.verts.toFinset
    · have hst : s = t := huniq s (List.mem_cons_self s rest) (hset.trans hx)
      subst hst
      unfold removeSetEq
      rw [if_pos hset, List.erase_cons_head]
    · have hst : s ≠ t := fun h => hset (h ▸ hx.symm ▸ rfl)
      unfold removeSetEq
      rw [if_neg hset, List.erase_cons_tail]
      · rw [ih (fun s' hs' => huniq s' (List.mem_cons_of_mem s hs'))
          ((List.mem_cons.mp hmem).resolve_left (fun h => hst h.symm))]
      · simpa using hst

/-- One-step unfolding of the `order_sides` loop once the search result is
known. -/
theorem orderSidesAux_succ (first curr nxt : Side) (fuel : Nat) (sides acc : List Side)
    (hfind : findCont curr sides = some nxt) :
    orderSidesAux first (fuel + 1) curr sides acc =
      if nxt.lst = first.hd then some ((acc ++ [curr]) ++ [nxt])
      else orderSidesAux first fuel nxt (removeSetEq nxt sides) (acc ++ [curr]) := by
  rw [orderSidesAux, hfind]

/-- `order_sides` on four sides forming a quadrilateral loop: `t1` runs
`a → b`, and the other three sides (in any insertion order, each in either
direction) cover the corner pairs `{b,c}`, `{c,d}`, `{d,a}`; the four corners
are distinct and no side passes through a corner except at its endpoints.
Then `order_sides` succeeds and returns the four sides chained cyclically
`a → b → c → d → a`, each equal to the input side or its reversal. -/
theorem order_sides_quad
    (t1 p q r : Side) (t234 : List Side) (a b c d : Nat)
    (ha : t1.hd = a) (hb : t1.lst = b)
    (hlp : 2 ≤ p.verts.length) (hlq : 2 ≤ q.verts.length) (hlr : 2 ≤ r.verts.length)
    (hperm : t234.Perm [p, q, r])
    (hp : p.hd = b ∧ p.lst = c ∨ p.hd = c ∧ p.lst = b)
    (hq : q.hd = c ∧ q.lst = d ∨ q.hd = d ∧ q.lst = c)
    (hr : r.hd = d ∧ r.lst = a ∨ r.hd = a ∧ r.lst = d)
    (hab : a ≠ b) (hac : a ≠ c) (had : a ≠ d)
    (hbc : b ≠ c) (hbd : b ≠ d) (hcd : c ≠ d)
    (hIq : ∀ x ∈ q.verts, x = q.hd ∨ x = q.lst ∨ (x ≠ a ∧ x ≠ b ∧ x ≠ c ∧ x ≠ d))
    (hIr : ∀ x ∈ r.verts, x = r.hd ∨ x = r.lst ∨ (x ≠ a ∧ x ≠ b ∧ x ≠ c ∧ x ≠ d)) :
    ∃ P2 Q2 R2 : Side,
      order_sides (t1 :: t234) = some [t1, P2, Q2, R2] ∧
      P2.hd = b ∧ P2.lst = c ∧ Q2.hd = c ∧ Q2.lst = d ∧ R2.hd = d ∧ R2.lst = a ∧
      (P2 = p ∨ P2.verts = p.verts.reverse) ∧
      (Q2 = q ∨ Q2.verts = q.verts.reverse) ∧
      (R2 = r ∨ R2.verts = r.verts.reverse) := by
  have hpne : p.verts ≠ [] := by
    intro h; rw [h] at hlp; simp at hlp
  have hqne : q.verts ≠ [] := by
    intro h; rw [h] at hlq; simp at hlq
  -- corner membership and non-membership facts
  have hbp : b ∈ p.verts := by
    rcases hp with ⟨h1, _⟩ | ⟨_, h2⟩
    · exact h1 ▸ p.hd_mem hpne
    · exact h2 ▸ p.lst_mem hpne
  have hcq : c ∈ q.verts := by
    rcases hq with ⟨h1, _⟩ | ⟨_, h2⟩
    · exact h1 ▸ q.hd_mem hqne
    · exact h2 ▸ q.lst_mem hqne
  have hbq : b ∉ q.verts := by
    intro hmem
    rcases hIq b hmem with h | h | h
    · rcases hq with ⟨h1, _⟩ | ⟨h1, _⟩ <;> rw [h1] at h
      · exact hbc h
      · exact hbd h
    · rcases hq with ⟨_, h2⟩ | ⟨_, h2⟩ <;> rw [h2] at h
      · exact hbd h
      · exact hbc h
    · exact h.2.1 rfl
  have hbr : b ∉ r.verts := by
    intro hmem
    rcases hIr b hmem with h | h | h
    · rcases hr with ⟨h1, _⟩ | ⟨h1, _⟩ <;> rw [h1] at h
      · exact hbd h
      · exact hab h.symm
    · rcases hr with ⟨_, h2⟩ | ⟨_, h2⟩ <;> rw [h2] at h
      · exact hab h.symm
      · exact hbd h
    · exact h.2.1 rfl
  have hcr : c ∉ r.verts := by
    intro hmem
    rcases hIr c hmem with h | h | h
    · rcases hr with ⟨h1, _⟩ | ⟨h1, _⟩ <;> rw [h1] at h
      · exact hcd h
      · exact hac h.symm
    · rcases hr with ⟨_, h2⟩ | ⟨_, h2⟩ <;> rw [h2] at h
      · exact hac h.symm
      · exact hcd h
    · exact h.2.2.1 rfl
  -- step 1: the unique continuation of t1 (ending at b) is p
  have huniq1 : ∀ s ∈ t234, s ≠ p → t1.lst ≠ s.hd ∧ t1.lst ≠ s.lst := by
    intro s hs hsp
    have hmem3 : s = p ∨ s = q ∨ s = r := by simpa using hperm.mem_iff.mp hs
    rcases hmem3 with rfl | rfl | rfl
    · exact absurd rfl hsp
    · rw [hb]
      constructor
      · rcases hq with ⟨h1, _⟩ | ⟨h1, _⟩ <;> rw [h1]
        · exact hbc
        · exact hbd
      · rcases hq with ⟨_, h2⟩ | ⟨_, h2⟩ <;> rw [h2]
        · exact hbd
        · exact hbc
    · rw [hb]
      constructor
      · rcases hr with ⟨h1, _⟩ | ⟨h1, _⟩ <;> rw [h1]
        · exact hbd
        · exact fun h' => hab h'.symm
      · rcases hr with ⟨_, h2⟩ | ⟨_, h2⟩ <;> rw [h2]
        · exact fun h' => hab h'.symm
        · exact hbd
  have hpmem : p ∈ t234 := hperm.mem_iff.mpr (List.mem_cons_self _ _)
  have hend1 : t1.lst = p.hd ∨ t1.lst = p.lst := by
    rcases hp with ⟨h1, _⟩ | ⟨_, h2⟩
    · exact Or.inl (by rw [hb, h1])
    · exact Or.inr (by rw [hb, h2])
  have hfind1 := findCont_spec t1 p t234 hpmem hend1 huniq1
  obtain ⟨P2, hP2eq, hP2hd, hP2lst, hP2set, hP2len, hP2or⟩ :
      ∃ P2, (if t1.lst = p.hd then p else Side.mk p.verts.reverse) = P2 ∧
        P2.hd = b ∧ P2.lst = c ∧ P2.verts.toFinset = p.verts.toFinset ∧
        P2.verts.length = p.verts.length ∧ (P2 = p ∨ P2.verts = p.verts.reverse) := by
    rcases hp with ⟨hph, hpl⟩ | ⟨hph, hpl⟩
    · have hcond : t1.lst = p.hd := by rw [hb, hph]
      exact ⟨p, by rw [if_pos hcond], hph, hpl, rfl, rfl, Or.inl rfl⟩
    · have hcond : ¬ t1.lst = p.hd := by rw [hb, hph]; exact hbc
      exact ⟨⟨p.verts.reverse⟩, by rw [if_neg hcond],
        by rw [Side.hd_reverse]; exact hpl, by rw [Side.lst_reverse]; exact hph,
        by simp, by simp, Or.inr rfl⟩
  have hfind1' : findCont t1 t234 = some P2 := by rw [hfind1, hP2eq]
  have hrem1 : removeSetEq P2 t234 = t234.erase p := by
    apply removeSetEq_spec P2 p hP2set
    · intro s hs hset
      have hmem3 : s = p ∨ s = q ∨ s = r := by simpa using hperm.mem_iff.mp hs
      rcases hmem3 with rfl | rfl | rfl
      · rfl
      · exact absurd (List.mem_toFinset.mp (hset ▸ List.mem_toFinset.mpr hbp)) hbq
      · exact absurd (List.mem_toFinset.mp (hset ▸ List.mem_toFinset.mpr hbp)) hbr
    · exact hpmem
  have hrem1perm : (t234.erase p).Perm [q, r] := by
    have h1 := hperm.erase p
    rw [List.erase_cons_head] at h1
    exact h1
  -- step 2: the unique continuation of P2 (ending at c) is q
  have huniq2 : ∀ s ∈ t234.erase p, s ≠ q → P2.lst ≠ s.hd ∧ P2.lst ≠ s.lst := by
    intro s hs hsq
    have hmem2 : s = q ∨ s = r := by simpa using hrem1perm.mem_iff.mp hs
    rcases hmem2 with rfl | rfl
    · exact absurd rfl hsq
    · rw [hP2lst]
      constructor
      · rcases hr with ⟨h1, _⟩ | ⟨h1, _⟩ <;> rw [h1]
        · exact hcd
        · exact fun h' => hac h'.symm
      · rcases hr with ⟨_, h2⟩ | ⟨_, h2⟩ <;> rw [h2]
        · exact fun h' => hac h'.symm
        · exact hcd
  have hqmem : q ∈ t234.erase p := hrem1perm.mem_iff.mpr (List.mem_cons_self _ _)
  have hend2 : P2.lst = q.hd ∨ P2.lst = q.lst := by
    rcases hq with ⟨h1, _⟩ | ⟨_, h2⟩
    · exact Or.inl (by rw [hP2lst, h1])
    · exact Or.inr (by rw [hP2lst, h2])
  have hfind2 := findCont_spec P2 q (t234.erase p) hqmem hend2 huniq2
  obtain ⟨Q2, hQ2eq, hQ2hd, hQ2lst, hQ2set, hQ2len, hQ2or⟩ :
      ∃ Q2, (if P2.lst = q.hd then q else Side.mk q.verts.reverse) = Q2 ∧
        Q2.hd = c ∧ Q2.lst = d ∧ Q2.verts.toFinset = q.verts.toFinset ∧
        Q2.verts.length = q.verts.length ∧ (Q2 = q ∨ Q2.verts = q.verts.reverse) := by
    rcases hq with ⟨hqh, hql⟩ | ⟨hqh, hql⟩
    · have hcond : P2.lst = q.hd := by rw [hP2lst, hqh]
      exact ⟨q, by rw [if_pos hcond], hqh, hql, rfl, rfl, Or.inl rfl⟩
    · have hcond : ¬ P2.lst = q.hd := by rw [hP2lst, hqh]; exact hcd
      exact ⟨⟨q.verts.reverse⟩, by rw [if_neg hcond],
        by rw [Side.hd_reverse]; exact hql, by rw [Side.lst_reverse]; exact hqh,
        by simp, by simp, Or.inr rfl⟩
  have hfind2' : findCont P2 (t234.erase p) = some Q2 := by rw [hfind2, hQ2eq]
  have hrem2 : removeSetEq Q2 (t234.erase p) = (t234.erase p).erase q := by
    apply removeSetEq_spec Q2 q hQ2set
    · intro s hs hset
      have hmem2 : s = q ∨ s = r := by simpa using hrem1perm.mem_iff.mp hs
      rcases hmem2 with rfl | rfl
      · rfl
      · exact absurd (List.mem_toFinset.mp (hset ▸ List.mem_toFinset.mpr hcq)) hcr
    · exact hqmem
  have hrem2eq : (t234.erase p).erase q = [r] := by
    have h1 := hrem1perm.erase q
    rw [List.erase_cons_head] at h1
    exact List.perm_singleton.mp h1
  -- step 3: the only remaining side is r, closing the loop at a
  have hend3 : Q2.lst = r.hd ∨ Q2.lst = r.lst := by
    rcases hr with ⟨h1, _⟩ | ⟨_, h2⟩
    · exact Or.inl (by rw [hQ2lst, h1])
    · exact Or.inr (by rw [hQ2lst, h2])
  have hfind3 := findCont_spec Q2 r [r] (List.mem_singleton.mpr rfl) hend3
    (by intro s hs hsr; exact absurd (by simpa using hs) hsr)
  obtain ⟨R2, hR2eq, hR2hd, hR2lst, hR2or⟩ :
      ∃ R2, (if Q2.lst = r.hd then r else Side.mk r.verts.reverse) = R2 ∧
        R2.hd = d ∧ R2.lst = a ∧ (R2 = r ∨ R2.verts = r.verts.reverse) := by
    rcases hr with ⟨hrh, hrl⟩ | ⟨hrh, hrl⟩
    · have hcond : Q2.lst = r.hd := by rw [hQ2lst, hrh]
      exact ⟨r, by rw [if_pos hcond], hrh, hrl, Or.inl rfl⟩
    · have hcond : ¬ Q2.lst = r.hd := by rw [hQ2lst, hrh]; exact fun h' => had h'.symm
      exact ⟨⟨r.verts.reverse⟩, by rw [if_neg hcond],
        by rw [Side.hd_reverse]; exact hrl, by rw [Side.lst_reverse]; exact hrh,
        Or.inr rfl⟩
  have hfind3' : findCont Q2 [r] = some R2 := by rw [hfind3, hR2eq]
  -- run the loop
  have hlen234 : t234.length = 3 := by rw [hperm.length_eq]; rfl
  refine ⟨P2, Q2, R2, ?_, hP2hd, hP2lst, hQ2hd, hQ2lst, hR2hd, hR2lst, hP2or, hQ2or, hR2or⟩
  have h0 : order_sides (t1 :: t234) = orderSidesAux t1 (t234.length + 1) t1 t234 [] := by
    rw [order_sides]
    rw [show removeSetEq t1 (t1 :: t234) = t234 by unfold removeSetEq; rw [if_pos rfl]]
  rw [h0, hlen234]
  rw [orderSidesAux_succ t1 t1 P2 3 t234 [] hfind1']
  rw [if_neg (show ¬ P2.lst = t1.hd by rw [hP2lst, ha]; exact fun h' => hac h'.symm)]
  rw [hrem1]
  rw [show (3 : Nat) = 2 + 1 from rfl,
    orderSidesAux_succ t1 P2 Q2 2 (t234.erase p) ([] ++ [t1]) hfind2']
  rw [if_neg (show ¬ Q2.lst = t1.hd by rw [hQ2lst, ha]; exact fun h' => had h'.symm)]
  rw [hrem2, hrem2eq]
  rw [show (2 : Nat) = 1 + 1 from rfl,
    orderSidesAux_succ t1 Q2 R2 1 [r] (([] ++ [t1]) ++ [P2]) hfind3']
  rw [if_pos (show R2.lst = t1.hd by rw [hR2lst, ha])]
  simp

/-! ## The rfcontext vertex arena

`new_vert_point` / `delete_verts` are host-mesh primitives (spec §6) consumed
by the core; they are embedded as an arena of natural-number vertex handles
with positions and an alive set. -/

/-- The host-mesh vertex arena standing in for `rfcontext`. -/
structure RF (P : Type) where
  next : Nat
  pos : Nat → P
  alive : Finset Nat

/-- `rfcontext.new_vert_point(p)`: allocate a fresh vertex handle at `p`. -/
def RF.new_vert_point {P : Type} (rf : RF P) (p : P) : Nat × RF P :=
  (rf.next, ⟨rf.next + 1, fun i => if i = rf.next then p else rf.pos i, insert rf.next rf.alive⟩)

/-- `rfcontext.delete_verts(vs)`. -/
def RF.delete_verts {P : Type} (rf : RF P) (vs : List Nat) : RF P :=
  ⟨rf.next, rf.pos, rf.alive \ vs.toFinset⟩

/-- Sequential allocation `[rfcontext.new_vert_point(p) for p in pts]`. -/
def allocVerts {P : Type} : RF P → List P → List Nat × RF P
  | rf, [] => ([], rf)
  | rf, p :: ps =>
    let v := (rf.new_vert_point p).1
    let rf' := (rf.new_vert_point p).2
    let rest := allocVerts rf' ps
    (v :: rest.1, rest.2)

/-- `Side.change_subdivisions` (lines 125-138): no-op when the result would
have fewer than 2 vertices; otherwise resample the current vertex positions
into `len + change_by` points, keep the endpoint vertices, allocate fresh
interior vertices at the resampled interior points, and delete the old
interior vertices. (The `new_edge`/`select` calls touch only mesh edges and
selection, which the arena does not track.) -/
def Side.change_subdivisions {P : Type} [Inhabited P]
    (dist : P → P → ℚ) (lerp : P → P → ℚ → P)
    (rf : RF P) (s : Side) (change_by : Int) : Side × RF P :=
  if (s.verts.length : Int) + change_by < 2 then (s, rf)
  else
    let m : Nat := ((s.verts.length : Int) + change_by).toNat
    let points := s.verts.map rf.pos
    let percentages := (List.range m).map (fun i : Nat => (i : ℚ) / ((m : ℚ) - 1))
    let new_points := restroke dist lerp points percentages
    let alloc := allocVerts rf (new_points.tail.dropLast)
    let new_verts := [s.verts.headD 0] ++ alloc.1 ++ [s.verts.getLastD 0]
    (⟨new_verts⟩, alloc.2.delete_verts (s.verts.tail.dropLast))

/-- `allocVerts` returns one handle per point. -/
theorem allocVerts_length {P : Type} :
    ∀ (pts : List P) (rf : RF P), ((allocVerts rf pts).1).length = pts.length := by
  intro pts
  induction pts with
  | nil => intro rf; rfl
  | cons p ps ih => intro rf; simp [allocVerts, ih]

/-- Handles returned by `allocVerts` are fresh: at least the arena's `next`. -/
theorem allocVerts_ge {P : Type} :
    ∀ (pts : List P) (rf : RF P) (v : Nat), v ∈ (allocVerts rf pts).1 → rf.next ≤ v := by
  intro pts
  induction pts with
  | nil => intro rf v h; simp [allocVerts] at h
  | cons p ps ih =>
    intro rf v h
    simp only [allocVerts, List.mem_cons] at h
    rcases h with rfl | h
    · exact le_refl _
    · have := ih (rf.new_vert_point p).2 v h
      simp only [RF.new_vert_point] at this
      omega

/-- `allocVerts` advances `next` by the number of points. -/
theorem allocVerts_next_eq {P : Type} :
    ∀ (pts : List P) (rf : RF P), ((allocVerts rf pts).2).next = rf.next + pts.length := by
  intro pts
  induction pts with
  | nil => intro rf; rfl
  | cons p ps ih =>
    intro rf
    simp only [allocVerts, ih, RF.new_vert_point, List.length_cons]
    omega

/-- `allocVerts` never removes vertices from the alive set. -/
theorem allocVerts_alive_mono {P : Type} :
    ∀ (pts : List P) (rf : RF P), rf.alive ⊆ ((allocVerts rf pts).2).alive := by
  intro pts
  induction pts with
  | nil => intro rf; exact Finset.Subset.refl _
  | cons p ps ih =>
    intro rf
    refine Finset.Subset.trans ?_ (ih (rf.new_vert_point p).2)
    simp only [RF.new_vert_point]
    exact Finset.subset_insert _ _

/-- All handles returned by `allocVerts` are alive afterwards. -/
theorem allocVerts_mem_alive {P : Type} :
    ∀ (pts : List P) (rf : RF P) (v : Nat),
      v ∈ (allocVerts rf pts).1 → v ∈ ((allocVerts rf pts).2).alive := by
  intro pts
  induction pts with
  | nil => intro rf v h; simp [allocVerts] at h
  | cons p ps ih =>
    intro rf v h
    simp only [allocVerts, List.mem_cons] at h
    rcases h with rfl | h
    · exact allocVerts_alive_mono ps (rf.new_vert_point p).2 (by simp [RF.new_vert_point])
    · exact ih _ v h

/-- `allocVerts` does not move vertices that already existed. -/
theorem allocVerts_pos_preserved {P : Type} :
    ∀ (pts : List P) (rf : RF P) (i : Nat), i < rf.next →
      ((allocVerts rf pts).2).pos i = rf.pos i := by
  intro pts
  induction pts with
  | nil => intro rf i _; rfl
  | cons p ps ih =>
    intro rf i hi
    have h1 := ih (rf.new_vert_point p).2 i (by simp [RF.new_vert_point]; omega)
    simp only [allocVerts]
    rw [h1]
    simp only [RF.new_vert_point]
    rw [if_neg (by omega)]

/-- The handles returned by `allocVerts` sit at exactly the requested points. -/
theorem allocVerts_map_pos {P : Type} :
    ∀ (pts : List P) (rf : RF P),
      ((allocVerts rf pts).1).map ((allocVerts rf pts).2).pos = pts := by
  intro pts
  induction pts with
  | nil => intro rf; rfl
  | cons p ps ih =>
    intro rf
    simp only [allocVerts, List.map_cons]
    have hhd : (allocVerts (rf.new_vert_point p).2 ps).2.pos (rf.new_vert_point p).1 = p := by
      rw [allocVerts_pos_preserved ps (rf.new_vert_point p).2 (rf.new_vert_point p).1
        (by simp [RF.new_vert_point])]
      simp [RF.new_vert_point]
    rw [hhd, ih]

/-- `(l ++ [x]).getLastD d = x`. -/
theorem getLastD_append_singleton : ∀ (l : List Nat) (x d : Nat), (l ++ [x]).getLastD d = x := by
  intro l
  induction l with
  | nil => intro x d; rfl
  | cons y ys ih =>
    intro x d
    rw [List.cons_append, List.getLastD_cons, ih]

/-- When `change_subdivisions` actually resamples (result size ≥ 2), the
endpoint vertices survive unchanged, the result still has ≥ 2 vertices, and
every result vertex is an old endpoint or a freshly allocated handle. -/
theorem change_subdivisions_endpoints {P : Type} [Inhabited P]
    (dist : P → P → ℚ) (lerp : P → P → ℚ → P) (rf : RF P) (s : Side) (cb : Int)
    (hc : ¬ ((s.verts.length : Int) + cb < 2)) :
    ((Side.change_subdivisions dist lerp rf s cb).1).hd = s.hd ∧
    ((Side.change_subdivisions dist lerp rf s cb).1).lst = s.lst ∧
    2 ≤ ((Side.change_subdivisions dist lerp rf s cb).1).verts.length ∧
    (∀ x ∈ ((Side.change_subdivisions dist lerp rf s cb).1).verts,
      x = s.hd ∨ x = s.lst ∨ rf.next ≤ x) := by
  unfold Side.change_subdivisions
  rw [if_neg hc]
  simp only []
  refine ⟨?_, ?_, ?_, ?_⟩
  · simp [Side.hd]
  · show (Side.mk _).lst = s.lst
    unfold Side.lst
    rw [show ([s.verts.headD 0] ++ _ ++ [s.verts.getLastD 0])
        = (([s.verts.headD 0] ++ _) ++ [s.verts.getLastD 0]) by rw [List.append_assoc]]
    rw [getLastD_append_singleton]
  · simp
  · intro x hx
    simp only [List.cons_append, List.nil_append, List.mem_cons, List.mem_append,
      List.mem_singleton] at hx
    rcases hx with rfl | hx | rfl | h
    · exact Or.inl rfl
    · exact Or.inr (Or.inr (allocVerts_ge _ rf x hx))
    · exact Or.inr (Or.inl rfl)
    · exact absurd h (List.not_mem_nil x)

/-- The percentages `[i / (m-1) for i in range(m)]` are non-decreasing. -/
theorem range_percentages_sorted (m : Nat) (hm : 2 ≤ m) :
    ((List.range m).map (fun i : Nat => (i : ℚ) / ((m : ℚ) - 1))).Pairwise (· ≤ ·) := by
  rw [List.pairwise_map]
  apply List.Pairwise.imp ?_ (List.pairwise_lt_range m)
  intro i j hij
  have hm1 : (0 : ℚ) < (m : ℚ) - 1 := by
    have : (2 : ℚ) ≤ (m : ℚ) := by exact_mod_cast hm
    linarith
  have hij' : (i : ℚ) ≤ (j : ℚ) := by exact_mod_cast hij.le
  gcongr

/-- When `change_subdivisions` resamples a side with positive arclength, the
result has exactly `len + change_by` vertices, the interior vertices are
freshly allocated, alive, and placed at the resampled points, and the old
interior vertices are deleted. -/
theorem change_subdivisions_resample {P : Type} [Inhabited P]
    (dist : P → P → ℚ) (lerp : P → P → ℚ → P) (rf : RF P) (s : Side) (cb : Int)
    (h2 : 2 ≤ s.verts.length)
    (hc : ¬ ((s.verts.length : Int) + cb < 2))
    (hdist : ∀ a b, 0 ≤ dist a b)
    (hpos : 0 < (lensOf dist (s.verts.map rf.pos)).sum)
    (hwf : ∀ v ∈ s.verts, v < rf.next) :
    ((Side.change_subdivisions dist lerp rf s cb).1).verts.length
        = ((s.verts.length : Int) + cb).toNat ∧
    (∀ v ∈ ((Side.change_subdivisions dist lerp rf s cb).1).verts.tail.dropLast,
      rf.next ≤ v ∧ v ∈ ((Side.change_subdivisions dist lerp rf s cb).2).alive) ∧
    (∀ v ∈ s.verts.tail.dropLast, v ∉ ((Side.change_subdivisions dist lerp rf s cb).2).alive) ∧
    (((Side.change_subdivisions dist lerp rf s cb).1).verts.tail.dropLast).map
        ((Side.change_subdivisions dist lerp rf s cb).2).pos
      = (restroke dist lerp (s.verts.map rf.pos)
          ((List.range ((s.verts.length : Int) + cb).toNat).map
            (fun i : Nat => (i : ℚ) / ((((s.verts.length : Int) + cb).toNat : ℚ) - 1)))).tail.dropLast := by
  have hm2 : 2 ≤ ((s.verts.length : Int) + cb).toNat := by omega
  have hnp : (restroke dist lerp (s.verts.map rf.pos)
      ((List.range ((s.verts.length : Int) + cb).toNat).map
        (fun i : Nat => (i : ℚ) / ((((s.verts.length : Int) + cb).toNat : ℚ) - 1)))).length
      = ((s.verts.length : Int) + cb).toNat := by
    rw [restroke_length_of_sorted dist lerp _ _ (by simpa using h2) hdist hpos
      (range_percentages_sorted _ hm2)]
    rw [List.length_map, List.length_range]
  unfold Side.change_subdivisions
  rw [if_neg hc]
  simp only []
  refine ⟨?_, ?_, ?_, ?_⟩
  · simp only [List.length_append, List.length_cons, List.length_nil, allocVerts_length]
    rw [List.length_dropLast, List.length_tail, hnp]
    omega
  · intro v hv
    rw [show [s.verts.headD 0] ++ _ ++ [s.verts.getLastD 0]
        = s.verts.headD 0 :: (_ ++ [s.verts.getLastD 0]) from rfl] at hv
    rw [List.tail_cons, List.dropLast_concat] at hv
    refine ⟨allocVerts_ge _ rf v hv, ?_⟩
    simp only [RF.delete_verts, Finset.mem_sdiff]
    refine ⟨allocVerts_mem_alive _ rf v hv, ?_⟩
    intro hmem
    have hv' : v ∈ s.verts :=
      List.mem_of_mem_tail (List.dropLast_subset _ (List.mem_toFinset.mp hmem))
    have := hwf v hv'
    have := allocVerts_ge _ rf v hv
    omega
  · intro v hv
    simp only [RF.delete_verts, Finset.mem_sdiff, not_and, not_not]
    intro _
    exact List.mem_toFinset.mpr hv
  · rw [show [s.verts.headD 0] ++ _ ++ [s.verts.getLastD 0]
        = s.verts.headD 0 :: (_ ++ [s.verts.getLastD 0]) from rfl]
    rw [List.tail_cons, List.dropLast_concat]
    exact allocVerts_map_pos _ rf

/-- C5: the claim as stated is false. On a side whose two vertices coincide in
position (zero arclength), `change_subdivisions(+1)` does NOT produce
`n + delta` vertices: `restroke` returns no points for a zero-length polyline,
so the side keeps exactly its 2 endpoints instead of growing to 3. -/
theorem change_subdivisions_counterexample :
    2 ≤ (Side.mk [0, 1]).verts.length ∧
    ¬ (((Side.mk [0, 1]).verts.length : Int) + 1 < 2) ∧
    ((Side.change_subdivisions Qdist Qlerp ⟨2, fun _ => (0 : ℚ), {0, 1}⟩
        (Side.mk [0, 1]) 1).1).verts.length
      ≠ (((Side.mk [0, 1]).verts.length : Int) + 1).toNat := by
  refine ⟨by norm_num, by norm_num, ?_⟩
  norm_num [Side.change_subdivisions, restroke, restrokeAux, lensOf, clamp01,
    Qdist, Qlerp, allocVerts]
  decide

/-- C5 (amended): for a side with ≥ 2 vertices over a well-formed arena,
`change_subdivisions(delta)` is a silent no-op when the result would have
fewer than 2 vertices; otherwise — PROVIDED the side's current arclength is
positive — the side ends with exactly `n + delta` vertices, its endpoints are
the same vertices as before, its interior vertices are newly created (fresh
and alive), and all old interior vertices are deleted. -/
theorem change_subdivisions_no_op_or_resamples {P : Type} [Inhabited P]
    (dist : P → P → ℚ) (lerp : P → P → ℚ → P) (rf : RF P) (s : Side) (delta : Int)
    (h2 : 2 ≤ s.verts.length)
    (hwf : ∀ v ∈ s.verts, v < rf.next) :
    ((s.verts.length : Int) + delta < 2 →
      Side.change_subdivisions dist lerp rf s delta = (s, rf)) ∧
    (¬ ((s.verts.length : Int) + delta < 2) →
      (∀ a b, 0 ≤ dist a b) →
      0 < (lensOf dist (s.verts.map rf.pos)).sum →
      ((Side.change_subdivisions dist lerp rf s delta).1).verts.length
          = ((s.verts.length : Int) + delta).toNat ∧
      ((Side.change_subdivisions dist lerp rf s delta).1).hd = s.hd ∧
      ((Side.change_subdivisions dist lerp rf s delta).1).lst = s.lst ∧
      (∀ v ∈ ((Side.change_subdivisions dist lerp rf s delta).1).verts.tail.dropLast,
        rf.next ≤ v ∧ v ∈ ((Side.change_subdivisions dist lerp rf s delta).2).alive) ∧
      (∀ v ∈ s.verts.tail.dropLast,
        v ∉ ((Side.change_subdivisions dist lerp rf s delta).2).alive)) := by
  constructor
  · intro hlt
    unfold Side.change_subdivisions
    rw [if_pos hlt]
  · intro hc hdist hpos
    obtain ⟨hhd, hlst, _, _⟩ := change_subdivisions_endpoints dist lerp rf s delta hc
    obtain ⟨hlen, hfresh, hdel, _⟩ :=
      change_subdivisions_resample dist lerp rf s delta h2 hc hdist hpos hwf
    exact ⟨hlen, hhd, hlst, hfresh, hdel⟩

/-- Witness for the amended C5 at a concrete input: side `[0, 1]` with
positions `0` and `1` (length 1), `delta = 1`. -/
theorem change_subdivisions_no_op_or_resamples_witness :
    (((Side.mk [0, 1]).verts.length : Int) + 1 < 2 →
      Side.change_subdivisions Qdist Qlerp ⟨2, fun i => (i : ℚ), {0, 1}⟩ (Side.mk [0, 1]) 1
        = (Side.mk [0, 1], ⟨2, fun i => (i : ℚ), {0, 1}⟩)) ∧
    (¬ (((Side.mk [0, 1]).verts.length : Int) + 1 < 2) →
      (∀ a b, 0 ≤ Qdist a b) →
      0 < (lensOf Qdist ((Side.mk [0, 1]).verts.map
        (⟨2, fun i => (i : ℚ), {0, 1}⟩ : RF ℚ).pos)).sum →
      ((Side.change_subdivisions Qdist Qlerp ⟨2, fun i => (i : ℚ), {0, 1}⟩
          (Side.mk [0, 1]) 1).1).verts.length
          = (((Side.mk [0, 1]).verts.length : Int) + 1).toNat ∧
      ((Side.change_subdivisions Qdist Qlerp ⟨2, fun i => (i : ℚ), {0, 1}⟩
          (Side.mk [0, 1]) 1).1).hd = (Side.mk [0, 1]).hd ∧
      ((Side.change_subdivisions Qdist Qlerp ⟨2, fun i => (i : ℚ), {0, 1}⟩
          (Side.mk [0, 1]) 1).1).lst = (Side.mk [0, 1]).lst ∧
      (∀ v ∈ ((Side.change_subdivisions Qdist Qlerp ⟨2, fun i => (i : ℚ), {0, 1}⟩
          (Side.mk [0, 1]) 1).1).verts.tail.dropLast,
        (⟨2, fun i => (i : ℚ), {0, 1}⟩ : RF ℚ).next ≤ v ∧
          v ∈ ((Side.change_subdivisions Qdist Qlerp ⟨2, fun i => (i : ℚ), {0, 1}⟩
            (Side.mk [0, 1]) 1).2).alive) ∧
      (∀ v ∈ (Side.mk [0, 1]).verts.tail.dropLast,
        v ∉ ((Side.change_subdivisions Qdist Qlerp ⟨2, fun i => (i : ℚ), {0, 1}⟩
          (Side.mk [0, 1]) 1).2).alive)) :=
  change_subdivisions_no_op_or_resamples Qdist Qlerp ⟨2, fun i => (i : ℚ), {0, 1}⟩
    (Side.mk [0, 1]) 1 (by norm_num) (by decide)

/-! ## AutofillPatches (autofill_utils.py lines 234-250) -/

/-- The `AutofillPatches` manager state: the arena plus `patches`,
`selected_patch_index` and `current_sides`. -/
structure PatchesState (P : Type) where
  rf : RF P
  patches : List AutofillPatch
  selected_patch_index : Int
  current_sides : List Side

/-- `AutofillPatches.__init__` (lines 235-239). -/
def initPatches {P : Type} (rf : RF P) : PatchesState P :=
  ⟨rf, [], -1, []⟩

/-- `AutofillPatches.add_side` (lines 241-250): append the side; once 4 sides
are pending, resubdivide the just-added side by +1 if the total vertex count
is odd, build an `AutofillPatch` from them (`order_sides` failure, a Python
assertion, is `none`), clear `current_sides`, append and select the patch. -/
def add_side {P : Type} [Inhabited P] (dist : P → P → ℚ) (lerp : P → P → ℚ → P)
    (st : PatchesState P) (side : Side) : Option (PatchesState P) :=
  let cs := st.current_sides ++ [side]
  if cs.length = 4 then
    let total := (cs.map (fun s => s.verts.length)).sum
    let fixed : List Side × RF P :=
      if total % 2 = 1 then
        let r := Side.change_subdivisions dist lerp st.rf side 1
        (st.current_sides ++ [r.1], r.2)
      else (cs, st.rf)
    match order_sides fixed.1 with
    | none => none
    | some ordered =>
      let patches' := st.patches ++ [AutofillPatch.mk ordered]
      some ⟨fixed.2, patches', (patches'.length : Int) - 1, []⟩
  else some ⟨st.rf, st.patches, st.selected_patch_index, cs⟩

/-- States reachable from a fresh `AutofillPatches` through successful
`add_side` calls. -/
inductive Reachable {P : Type} [Inhabited P] (dist : P → P → ℚ) (lerp : P → P → ℚ → P) :
    PatchesState P → Prop
  | init : ∀ rf, Reachable dist lerp (initPatches rf)
  | step : ∀ {st st' : PatchesState P} {s : Side},
      Reachable dist lerp st → add_side dist lerp st s = some st' → Reachable dist lerp st'

/-- C10: in every state reachable through `add_side` calls, at most 3 sides
are pending; a successful `add_side` appends the incoming side to
`current_sides` when that keeps the count below 4 (leaving `patches` and the
selection untouched — it never adds a side to an existing patch), and exactly
when the count reaches 4 it empties `current_sides`, appends one new patch
(leaving all previous patches unchanged, never splitting one) and selects it. -/
theorem add_side_pending_invariant {P : Type} [Inhabited P]
    (dist : P → P → ℚ) (lerp : P → P → ℚ → P) :
    (∀ st : PatchesState P, Reachable dist lerp st → st.current_sides.length ≤ 3) ∧
    (∀ (st : PatchesState P) (s : Side) (st' : PatchesState P),
      add_side dist lerp st s = some st' →
      (st.current_sides.length + 1 ≠ 4 →
        st'.patches = st.patches ∧
        st'.current_sides = st.current_sides ++ [s] ∧
        st'.selected_patch_index = st.selected_patch_index) ∧
      (st.current_sides.length + 1 = 4 →
        ∃ pa, st'.patches = st.patches ++ [pa] ∧
          st'.current_sides = [] ∧
          st'.selected_patch_index = (st'.patches.length : Int) - 1)) := by
  have hstep : ∀ (st : PatchesState P) (s : Side) (st' : PatchesState P),
      add_side dist lerp st s = some st' →
      (st.current_sides.length + 1 ≠ 4 →
        st'.patches = st.patches ∧
        st'.current_sides = st.current_sides ++ [s] ∧
        st'.selected_patch_index = st.selected_patch_index) ∧
      (st.current_sides.length + 1 = 4 →
        ∃ pa, st'.patches = st.patches ++ [pa] ∧
          st'.current_sides = [] ∧
          st'.selected_patch_index = (st'.patches.length : Int) - 1) := by
    intro st s st' h
    unfold add_side at h
    simp only [List.length_append, List.length_singleton] at h
    by_cases h4 : st.current_sides.length + 1 = 4
    · rw [if_pos h4] at h
      refine ⟨fun hne => absurd h4 hne, fun _ => ?_⟩
      rcases horder : order_sides (if ((st.current_sides ++ [s]).map
          (fun s => s.verts.length)).sum % 2 = 1 then
            (st.current_sides ++ [(Side.change_subdivisions dist lerp st.rf s 1).1],
              (Side.change_subdivisions dist lerp st.rf s 1).2)
          else (st.current_sides ++ [s], st.rf)).1 with _ | ordered
      · rw [horder] at h
        exact absurd h (by simp)
      · rw [horder] at h
        injection h with h
        subst h
        exact ⟨AutofillPatch.mk ordered, rfl, rfl, by simp⟩
    · rw [if_neg h4] at h
      injection h with h
      subst h
      exact ⟨fun _ => ⟨rfl, rfl, rfl⟩, fun he => absurd he h4⟩
  refine ⟨?_, hstep⟩
  intro st hr
  induction hr with
  | init rf => simp [initPatches]
  | step hr hadd ih =>
    rename_i st₀ st₁ s
    rcases hstep st₀ s st₁ hadd with ⟨hlt, heq⟩
    by_cases h4 : st₀.current_sides.length + 1 = 4
    · obtain ⟨pa, _, hcs, _⟩ := heq h4
      rw [hcs]
      simp
    · obtain ⟨_, hcs, _⟩ := hlt h4
      rw [hcs]
      simp only [List.length_append, List.length_singleton]
      omega

/-- Witness for C10: the invariant applied to a fresh state, and the step
description applied to a concrete successful `add_side` call. -/
theorem add_side_pending_invariant_witness :
    (initPatches (P := ℚ) ⟨0, fun _ => 0, ∅⟩).current_sides.length ≤ 3 ∧
    ((initPatches (P := ℚ) ⟨0, fun _ => 0, ∅⟩).current_sides.length + 1 ≠ 4 →
      ∀ st', add_side Qdist Qlerp (initPatches ⟨0, fun _ => 0, ∅⟩) (Side.mk [0, 1]) = some st' →
        st'.patches = (initPatches (P := ℚ) ⟨0, fun _ => 0, ∅⟩).patches ∧
        st'.current_sides = (initPatches (P := ℚ) ⟨0, fun _ => 0, ∅⟩).current_sides ++ [Side.mk [0, 1]] ∧
        st'.selected_patch_index = (initPatches (P := ℚ) ⟨0, fun _ => 0, ∅⟩).selected_patch_index) := by
  constructor
  · exact (add_side_pending_invariant Qdist Qlerp).1 _ (Reachable.init _)
  · intro hne st' h
    exact ((add_side_pending_invariant Qdist Qlerp).2 _ _ _ h).1 hne


/-- Sequential `add_side` calls. -/
def add_sides {P : Type} [Inhabited P] (dist : P → P → ℚ) (lerp : P → P → ℚ → P) :
    PatchesState P → List Side → Option (PatchesState P)
  | st, [] => some st
  | st, s :: rest =>
    match add_side dist lerp st s with
    | none => none
    | some st' => add_sides dist lerp st' rest

/-- The sides of a closed patch form one cyclic boundary: each side's end
vertex is the next side's start vertex, wrapping around. -/
def IsClosedChain (l : List Side) : Prop :=
  l ≠ [] ∧ ∀ i, i < l.length →
    (l.getD i default).lst = (l.getD ((i + 1) % l.length) default).hd

theorem add_side_three {P : Type} [Inhabited P] (dist : P → P → ℚ) (lerp : P → P → ℚ → P)
    (rf : RF P) (pl : List AutofillPatch) (sel : Int) (cs : List Side) (s : Side)
    (h : (cs ++ [s]).length ≠ 4) :
    add_side dist lerp ⟨rf, pl, sel, cs⟩ s = some ⟨rf, pl, sel, cs ++ [s]⟩ := by
  unfold add_side
  simp only []
  rw [if_neg h]

theorem add_side_fourth_even {P : Type} [Inhabited P]
    (dist : P → P → ℚ) (lerp : P → P → ℚ → P)
    (rf : RF P) (pl : List AutofillPatch) (sel : Int) (s1 s2 s3 s4 : Side)
    (ordered : List Side)
    (hpar : ¬ (([s1, s2, s3, s4].map (fun s => s.verts.length)).sum % 2 = 1))
    (hord : order_sides [s1, s2, s3, s4] = some ordered) :
    add_side dist lerp ⟨rf, pl, sel, [s1, s2, s3]⟩ s4
      = some ⟨rf, pl ++ [AutofillPatch.mk ordered],
          ((pl ++ [AutofillPatch.mk ordered]).length : Int) - 1, []⟩ := by
  unfold add_side
  simp only []
  have hl : [s1, s2, s3] ++ [s4] = [s1, s2, s3, s4] := rfl
  rw [hl]
  rw [if_pos (by simp)]
  rw [if_neg hpar]
  simp only []
  rw [hord]

theorem add_side_fourth_odd {P : Type} [Inhabited P]
    (dist : P → P → ℚ) (lerp : P → P → ℚ → P)
    (rf : RF P) (pl : List AutofillPatch) (sel : Int) (s1 s2 s3 s4 : Side)
    (ordered : List Side)
    (hpar : ([s1, s2, s3, s4].map (fun s => s.verts.length)).sum % 2 = 1)
    (hord : order_sides [s1, s2, s3,
        (Side.change_subdivisions dist lerp rf s4 1).1] = some ordered) :
    add_side dist lerp ⟨rf, pl, sel, [s1, s2, s3]⟩ s4
      = some ⟨(Side.change_subdivisions dist lerp rf s4 1).2,
          pl ++ [AutofillPatch.mk ordered],
          ((pl ++ [AutofillPatch.mk ordered]).length : Int) - 1, []⟩ := by
  unfold add_side
  simp only []
  have hl : [s1, s2, s3] ++ [s4] = [s1, s2, s3, s4] := rfl
  rw [hl]
  rw [if_pos (by simp)]
  rw [if_pos hpar]
  simp only []
  have hl2 : [s1, s2, s3] ++ [(Side.change_subdivisions dist lerp rf s4 1).1]
      = [s1, s2, s3, (Side.change_subdivisions dist lerp rf s4 1).1] := rfl
  rw [hl2, hord]

/-- The cyclic-boundary property of the ordered quad result. -/
theorem quad_chain_props (t1 P2 Q2 R2 : Side) (a b c d : Nat)
    (ha : t1.hd = a) (hb : t1.lst = b)
    (hhP : P2.hd = b) (hlP : P2.lst = c) (hhQ : Q2.hd = c) (hlQ : Q2.lst = d)
    (hhR : R2.hd = d) (hlR : R2.lst = a) :
    IsClosedChain [t1, P2, Q2, R2] := by
  refine ⟨by simp, ?_⟩
  intro i hi
  simp only [List.length_cons, List.length_nil] at hi
  interval_cases i <;>
    simp [List.getD_cons_zero, List.getD_cons_succ, ha, hb, hhP, hlP, hhQ, hlQ, hhR, hlR]

/-- Core four-call lemma behind C1 and C2: starting from a fresh
`AutofillPatches`, adding four sides that form a quadrilateral loop (in any
insertion order and orientation; `t1` added first, running `a → b`; the loop
corners `a, b, c, d` distinct; interiors avoid the corners; all handles live
in the arena) yields exactly one patch with 4 cyclically chained sides and no
pending sides; the patch's total vertex count equals that of the four sides
after the parity fix applied to the last-added side. -/
theorem add_sides_quad_spec {P : Type} [Inhabited P]
    (dist : P → P → ℚ) (lerp : P → P → ℚ → P) (rf0 : RF P)
    (t1 t2 t3 t4 p q r : Side) (a b c d : Nat)
    (ha : t1.hd = a) (hb : t1.lst = b)
    (hlt1 : 2 ≤ t1.verts.length)
    (hlp : 2 ≤ p.verts.length) (hlq : 2 ≤ q.verts.length) (hlr : 2 ≤ r.verts.length)
    (hperm : [t2, t3, t4].Perm [p, q, r])
    (hp : p.hd = b ∧ p.lst = c ∨ p.hd = c ∧ p.lst = b)
    (hq : q.hd = c ∧ q.lst = d ∨ q.hd = d ∧ q.lst = c)
    (hr : r.hd = d ∧ r.lst = a ∨ r.hd = a ∧ r.lst = d)
    (hab : a ≠ b) (hac : a ≠ c) (had : a ≠ d)
    (hbc : b ≠ c) (hbd : b ≠ d) (hcd : c ≠ d)
    (hIq : ∀ x ∈ q.verts, x = q.hd ∨ x = q.lst ∨ (x ≠ a ∧ x ≠ b ∧ x ≠ c ∧ x ≠ d))
    (hIr : ∀ x ∈ r.verts, x = r.hd ∨ x = r.lst ∨ (x ≠ a ∧ x ≠ b ∧ x ≠ c ∧ x ≠ d))
    (hwf : ∀ s', s' = t1 ∨ s' = t2 ∨ s' = t3 ∨ s' = t4 → ∀ v ∈ s'.verts, v < rf0.next) :
    ∃ (stf : PatchesState P) (pa : AutofillPatch) (s4 : Side),
      add_sides dist lerp (initPatches rf0) [t1, t2, t3, t4] = some stf ∧
      stf.patches = [pa] ∧ stf.current_sides = [] ∧ stf.selected_patch_index = 0 ∧
      pa.sides.length = 4 ∧ IsClosedChain pa.sides ∧
      (¬ (([t1, t2, t3, t4].map (fun s => s.verts.length)).sum % 2 = 1) →
        s4 = t4 ∧ stf.rf = rf0) ∧
      (([t1, t2, t3, t4].map (fun s => s.verts.length)).sum % 2 = 1 →
        s4 = (Side.change_subdivisions dist lerp rf0 t4 1).1) ∧
      (pa.sides.map (fun s => s.verts.length)).Perm
        [t1.verts.length, t2.verts.length, t3.verts.length, s4.verts.length] := by
  have e1 : add_side dist lerp (initPatches rf0) t1 = some ⟨rf0, [], -1, [t1]⟩ := by
    unfold initPatches
    rw [add_side_three dist lerp rf0 [] (-1) [] t1 (by simp)]
    rfl
  have e2 : add_side dist lerp ⟨rf0, [], -1, [t1]⟩ t2 = some ⟨rf0, [], -1, [t1, t2]⟩ := by
    rw [add_side_three dist lerp rf0 [] (-1) [t1] t2 (by simp)]
    rfl
  have e3 : add_side dist lerp ⟨rf0, [], -1, [t1, t2]⟩ t3
      = some ⟨rf0, [], -1, [t1, t2, t3]⟩ := by
    rw [add_side_three dist lerp rf0 [] (-1) [t1, t2] t3 (by simp)]
    rfl
  by_cases hpar : ([t1, t2, t3, t4].map (fun s => s.verts.length)).sum % 2 = 1
  case neg =>
    obtain ⟨P2, Q2, R2, hord, hhP, hlP, hhQ, hlQ, hhR, hlR, hoP, hoQ, hoR⟩ :=
      order_sides_quad t1 p q r [t2, t3, t4] a b c d ha hb hlp hlq hlr hperm hp hq hr
        hab hac had hbc hbd hcd hIq hIr
    have e4 := add_side_fourth_even dist lerp rf0 [] (-1) t1 t2 t3 t4
      [t1, P2, Q2, R2] hpar hord
    refine ⟨⟨rf0, [AutofillPatch.mk [t1, P2, Q2, R2]], 0, []⟩,
      AutofillPatch.mk [t1, P2, Q2, R2], t4, ?_, rfl, rfl, rfl, rfl,
      quad_chain_props t1 P2 Q2 R2 a b c d ha hb hhP hlP hhQ hlQ hhR hlR,
      fun _ => ⟨rfl, rfl⟩, fun h => absurd h hpar, ?_⟩
    · simp [add_sides, e1, e2, e3, e4]
    · have hPlen : P2.verts.length = p.verts.length := by
        rcases hoP with rfl | h
        · rfl
        · rw [h, List.length_reverse]
      have hQlen : Q2.verts.length = q.verts.length := by
        rcases hoQ with rfl | h
        · rfl
        · rw [h, List.length_reverse]
      have hRlen : R2.verts.length = r.verts.length := by
        rcases hoR with rfl | h
        · rfl
        · rw [h, List.length_reverse]
      have hpm := (hperm.map (fun s => s.verts.length)).symm
      simp only [List.map_cons, List.map_nil] at hpm
      show ([t1, P2, Q2, R2].map (fun s => s.verts.length)).Perm _
      simp only [List.map_cons, List.map_nil]
      rw [hPlen, hQlen, hRlen]
      exact List.Perm.cons _ hpm
  case pos =>
    have h4mem : t4 = p ∨ t4 = q ∨ t4 = r := by
      simpa using hperm.mem_iff.mp (show t4 ∈ [t2, t3, t4] by simp)
    have hlt4 : 2 ≤ t4.verts.length := by
      rcases h4mem with h | h | h <;> rw [h] <;> assumption
    have hc4 : ¬ ((t4.verts.length : Int) + 1 < 2) := by omega
    obtain ⟨hhd4, hlst4, hlen4, hmem4⟩ := change_subdivisions_endpoints dist lerp rf0 t4 1 hc4
    have ht1ne : t1.verts ≠ [] := by
      intro h
      rw [h] at hlt1
      simp at hlt1
    have hqne : q.verts ≠ [] := by
      intro h
      rw [h] at hlq
      simp at hlq
    have hpne : p.verts ≠ [] := by
      intro h
      rw [h] at hlp
      simp at hlp
    have hwfp : ∀ v ∈ p.verts, v < rf0.next := by
      intro v hv
      have h' : p = t2 ∨ p = t3 ∨ p = t4 := by
        simpa using hperm.mem_iff.mpr (show p ∈ [p, q, r] by simp)
      rcases h' with h | h | h
      · exact hwf t2 (Or.inr (Or.inl rfl)) v (h ▸ hv)
      · exact hwf t3 (Or.inr (Or.inr (Or.inl rfl))) v (h ▸ hv)
      · exact hwf t4 (Or.inr (Or.inr (Or.inr rfl))) v (h ▸ hv)
    have hwfq : ∀ v ∈ q.verts, v < rf0.next := by
      intro v hv
      have h' : q = t2 ∨ q = t3 ∨ q = t4 := by
        simpa using hperm.mem_iff.mpr (show q ∈ [p, q, r] by simp)
      rcases h' with h | h | h
      · exact hwf t2 (Or.inr (Or.inl rfl)) v (h ▸ hv)
      · exact hwf t3 (Or.inr (Or.inr (Or.inl rfl))) v (h ▸ hv)
      · exact hwf t4 (Or.inr (Or.inr (Or.inr rfl))) v (h ▸ hv)
    have han : a < rf0.next := hwf t1 (Or.inl rfl) a (ha ▸ t1.hd_mem ht1ne)
    have hbn : b < rf0.next := hwf t1 (Or.inl rfl) b (hb ▸ t1.lst_mem ht1ne)
    have hcn : c < rf0.next := by
      apply hwfp
      rcases hp with ⟨_, h2⟩ | ⟨h1, _⟩
      · exact h2 ▸ p.lst_mem hpne
      · exact h1 ▸ p.hd_mem hpne
    have hdn : d < rf0.next := by
      apply hwfq
      rcases hq with ⟨_, h2⟩ | ⟨h1, _⟩
      · exact h2 ▸ q.lst_mem hqne
      · exact h1 ▸ q.hd_mem hqne
    have hI4 : ∀ x ∈ ((Side.change_subdivisions dist lerp rf0 t4 1).1).verts,
        x = ((Side.change_subdivisions dist lerp rf0 t4 1).1).hd ∨
        x = ((Side.change_subdivisions dist lerp rf0 t4 1).1).lst ∨
        (x ≠ a ∧ x ≠ b ∧ x ≠ c ∧ x ≠ d) := by
      intro x hx
      rcases hmem4 x hx with h | h | h
      · exact Or.inl (h.trans hhd4.symm)
      · exact Or.inr (Or.inl (h.trans hlst4.symm))
      · exact Or.inr (Or.inr ⟨by omega, by omega, by omega, by omega⟩)
    rcases h4mem with h4 | h4 | h4
    · -- the last-added side plays the role of p (corner pair {b, c})
      subst h4
      have hp23 : [t2, t3].Perm [q, r] := by
        have h1 : ([t4] ++ [t2, t3]).Perm [t2, t3, t4] := by
          rw [show [t2, t3, t4] = [t2, t3] ++ [t4] from rfl]
          exact List.perm_append_comm
        exact (h1.trans hperm).cons_inv
      have hperm' : [t2, t3, (Side.change_subdivisions dist lerp rf0 t4 1).1].Perm
          [(Side.change_subdivisions dist lerp rf0 t4 1).1, q, r] := by
        have h1 : ([t2, t3] ++ [(Side.change_subdivisions dist lerp rf0 t4 1).1]).Perm
            ([q, r] ++ [(Side.change_subdivisions dist lerp rf0 t4 1).1]) :=
          hp23.append_right _
        exact h1.trans List.perm_append_comm
      have hp' : (Side.change_subdivisions dist lerp rf0 t4 1).1.hd = b ∧
            (Side.change_subdivisions dist lerp rf0 t4 1).1.lst = c ∨
          (Side.change_subdivisions dist lerp rf0 t4 1).1.hd = c ∧
            (Side.change_subdivisions dist lerp rf0 t4 1).1.lst = b := by
        rcases hp with ⟨h1, h2⟩ | ⟨h1, h2⟩
        · exact Or.inl ⟨hhd4.trans h1, hlst4.trans h2⟩
        · exact Or.inr ⟨hhd4.trans h1, hlst4.trans h2⟩
      obtain ⟨P2, Q2, R2, hord, hhP, hlP, hhQ, hlQ, hhR, hlR, hoP, hoQ, hoR⟩ :=
        order_sides_quad t1 (Side.change_subdivisions dist lerp rf0 t4 1).1 q r
          [t2, t3, (Side.change_subdivisions dist lerp rf0 t4 1).1] a b c d ha hb
          hlen4 hlq hlr hperm' hp' hq hr hab hac had hbc hbd hcd hIq hIr
      have e4 := add_side_fourth_odd dist lerp rf0 [] (-1) t1 t2 t3 t4
        [t1, P2, Q2, R2] hpar hord
      refine ⟨⟨(Side.change_subdivisions dist lerp rf0 t4 1).2,
          [AutofillPatch.mk [t1, P2, Q2, R2]], 0, []⟩,
        AutofillPatch.mk [t1, P2, Q2, R2], (Side.change_subdivisions dist lerp rf0 t4 1).1,
        ?_, rfl, rfl, rfl, rfl,
        quad_chain_props t1 P2 Q2 R2 a b c d ha hb hhP hlP hhQ hlQ hhR hlR,
        fun h => absurd hpar h, fun _ => rfl, ?_⟩
      · simp [add_sides, e1, e2, e3, e4]
      · have hPlen : P2.verts.length
            = (Side.change_subdivisions dist lerp rf0 t4 1).1.verts.length := by
          rcases hoP with rfl | h
          · rfl
          · rw [h, List.length_reverse]
        have hQlen : Q2.verts.length = q.verts.length := by
          rcases hoQ with rfl | h
          · rfl
          · rw [h, List.length_reverse]
        have hRlen : R2.verts.length = r.verts.length := by
          rcases hoR with rfl | h
          · rfl
          · rw [h, List.length_reverse]
        have hpm := (hperm'.map (fun s => s.verts.length)).symm
        simp only [List.map_cons, List.map_nil] at hpm
        show ([t1, P2, Q2, R2].map (fun s => s.verts.length)).Perm _
        simp only [List.map_cons, List.map_nil]
        rw [hPlen, hQlen, hRlen]
        exact List.Perm.cons _ hpm
    · -- the last-added side plays the role of q (corner pair {c, d})
      subst h4
      have hq23 : [t2, t3].Perm [p, r] := by
        have h1 : ([t4] ++ [t2, t3]).Perm [t2, t3, t4] := by
          rw [show [t2, t3, t4] = [t2, t3] ++ [t4] from rfl]
          exact List.perm_append_comm
        have h2 : [p, t4, r].Perm [t4, p, r] := List.Perm.swap t4 p [r]
        exact ((h1.trans hperm).trans h2).cons_inv
      have hperm' : [t2, t3, (Side.change_subdivisions dist lerp rf0 t4 1).1].Perm
          [p, (Side.change_subdivisions dist lerp rf0 t4 1).1, r] := by
        have h1 : ([t2, t3] ++ [(Side.change_subdivisions dist lerp rf0 t4 1).1]).Perm
            ([p, r] ++ [(Side.change_subdivisions dist lerp rf0 t4 1).1]) :=
          hq23.append_right _
        have h2 : ([p, r] ++ [(Side.change_subdivisions dist lerp rf0 t4 1).1]).Perm
            [p, (Side.change_subdivisions dist lerp rf0 t4 1).1, r] :=
          List.Perm.cons p (List.Perm.swap (Side.change_subdivisions dist lerp rf0 t4 1).1 r [])
        exact h1.trans h2
      have hq' : (Side.change_subdivisions dist lerp rf0 t4 1).1.hd = c ∧
            (Side.change_subdivisions dist lerp rf0 t4 1).1.lst = d ∨
          (Side.change_subdivisions dist lerp rf0 t4 1).1.hd = d ∧
            (Side.change_subdivisions dist lerp rf0 t4 1).1.lst = c := by
        rcases hq with ⟨h1, h2⟩ | ⟨h1, h2⟩
        · exact Or.inl ⟨hhd4.trans h1, hlst4.trans h2⟩
        · exact Or.inr ⟨hhd4.trans h1, hlst4.trans h2⟩
      obtain ⟨P2, Q2, R2, hord, hhP, hlP, hhQ, hlQ, hhR, hlR, hoP, hoQ, hoR⟩ :=
        order_sides_quad t1 p (Side.change_subdivisions dist lerp rf0 t4 1).1 r
          [t2, t3, (Side.change_subdivisions dist lerp rf0 t4 1).1] a b c d ha hb
          hlp hlen4 hlr hperm' hp hq' hr hab hac had hbc hbd hcd hI4 hIr
      have e4 := add_side_fourth_odd dist lerp rf0 [] (-1) t1 t2 t3 t4
        [t1, P2, Q2, R2] hpar hord
      refine ⟨⟨(Side.change_subdivisions dist lerp rf0 t4 1).2,
          [AutofillPatch.mk [t1, P2, Q2, R2]], 0, []⟩,
        AutofillPatch.mk [t1, P2, Q2, R2], (Side.change_subdivisions dist lerp rf0 t4 1).1,
        ?_, rfl, rfl, rfl, rfl,
        quad_chain_props t1 P2 Q2 R2 a b c d ha hb hhP hlP hhQ hlQ hhR hlR,
        fun h => absurd hpar h, fun _ => rfl, ?_⟩
      · simp [add_sides, e1, e2, e3, e4]
      · have hPlen : P2.verts.length = p.verts.length := by
          rcases hoP with rfl | h
          · rfl
          · rw [h, List.length_reverse]
        have hQlen : Q2.verts.length
            = (Side.change_subdivisions dist lerp rf0 t4 1).1.verts.length := by
          rcases hoQ with rfl | h
          · rfl
          · rw [h, List.length_reverse]
        have hRlen : R2.verts.length = r.verts.length := by
          rcases hoR with rfl | h
          · rfl
          · rw [h, List.length_reverse]
        have hpm := (hperm'.map (fun s => s.verts.length)).symm
        simp only [List.map_cons, List.map_nil] at hpm
        show ([t1, P2, Q2, R2].map (fun s => s.verts.length)).Perm _
        simp only [List.map_cons, List.map_nil]
        rw [hPlen, hQlen, hRlen]
        exact List.Perm.cons _ hpm
    · -- the last-added side plays the role of r (corner pair {d, a})
      subst h4
      have hr23 : [t2, t3].Perm [p, q] := by
        have h1 : ([t4] ++ [t2, t3]).Perm [t2, t3, t4] := by
          rw [show [t2, t3, t4] = [t2, t3] ++ [t4] from rfl]
          exact List.perm_append_comm
        have h2 : [p, q, t4].Perm [t4, p, q] := by
          rw [show [p, q, t4] = [p, q] ++ [t4] from rfl]
          exact List.perm_append_comm
        exact ((h1.trans hperm).trans h2).cons_inv
      have hperm' : [t2, t3, (Side.change_subdivisions dist lerp rf0 t4 1).1].Perm
          [p, q, (Side.change_subdivisions dist lerp rf0 t4 1).1] :=
        hr23.append_right [(Side.change_subdivisions dist lerp rf0 t4 1).1]
      have hr' : (Side.change_subdivisions dist lerp rf0 t4 1).1.hd = d ∧
            (Side.change_subdivisions dist lerp rf0 t4 1).1.lst = a ∨
          (Side.change_subdivisions dist lerp rf0 t4 1).1.hd = a ∧
            (Side.change_subdivisions dist lerp rf0 t4 1).1.lst = d := by
        rcases hr with ⟨h1, h2⟩ | ⟨h1, h2⟩
        · exact Or.inl ⟨hhd4.trans h1, hlst4.trans h2⟩
        · exact Or.inr ⟨hhd4.trans h1, hlst4.trans h2⟩
      obtain ⟨P2, Q2, R2, hord, hhP, hlP, hhQ, hlQ, hhR, hlR, hoP, hoQ, hoR⟩ :=
        order_sides_quad t1 p q (Side.change_subdivisions dist lerp rf0 t4 1).1
          [t2, t3, (Side.change_subdivisions dist lerp rf0 t4 1).1] a b c d ha hb
          hlp hlq hlen4 hperm' hp hq hr' hab hac had hbc hbd hcd hIq hI4
      have e4 := add_side_fourth_odd dist lerp rf0 [] (-1) t1 t2 t3 t4
        [t1, P2, Q2, R2] hpar hord
      refine ⟨⟨(Side.change_subdivisions dist lerp rf0 t4 1).2,
          [AutofillPatch.mk [t1, P2, Q2, R2]], 0, []⟩,
        AutofillPatch.mk [t1, P2, Q2, R2], (Side.change_subdivisions dist lerp rf0 t4 1).1,
        ?_, rfl, rfl, rfl, rfl,
        quad_chain_props t1 P2 Q2 R2 a b c d ha hb hhP hlP hhQ hlQ hhR hlR,
        fun h => absurd hpar h, fun _ => rfl, ?_⟩
      · simp [add_sides, e1, e2, e3, e4]
      · have hPlen : P2.verts.length = p.verts.length := by
          rcases hoP with rfl | h
          · rfl
          · rw [h, List.length_reverse]
        have hQlen : Q2.verts.length = q.verts.length := by
          rcases hoQ with rfl | h
          · rfl
          · rw [h, List.length_reverse]
        have hRlen : R2.verts.length
            = (Side.change_subdivisions dist lerp rf0 t4 1).1.verts.length := by
          rcases hoR with rfl | h
          · rfl
          · rw [h, List.length_reverse]
        have hpm := (hperm'.map (fun s => s.verts.length)).symm
        simp only [List.map_cons, List.map_nil] at hpm
        show ([t1, P2, Q2, R2].map (fun s => s.verts.length)).Perm _
        simp only [List.map_cons, List.map_nil]
        rw [hPlen, hQlen, hRlen]
        exact List.Perm.cons _ hpm

/-- C1: for every fresh `AutofillPatches` and every 4 sides forming a
quadrilateral loop (the first added side runs `a → b`; the other three, in any
insertion order and orientation, cover corner pairs `{b,c}`, `{c,d}`, `{d,a}`;
corners distinct; side interiors avoid the corners; handles live in the
arena), adding them one at a time via `add_side` yields, after the 4th call,
exactly one patch; that patch is closed — its 4 sides are ordered into one
cyclic boundary where each side's end vertex is the next side's start vertex —
and the pending-side list is empty. -/
theorem add_side_quad_closes_patch {P : Type} [Inhabited P]
    (dist : P → P → ℚ) (lerp : P → P → ℚ → P) (rf0 : RF P)
    (t1 t2 t3 t4 p q r : Side) (a b c d : Nat)
    (ha : t1.hd = a) (hb : t1.lst = b)
    (hlt1 : 2 ≤ t1.verts.length)
    (hlp : 2 ≤ p.verts.length) (hlq : 2 ≤ q.verts.length) (hlr : 2 ≤ r.verts.length)
    (hperm : [t2, t3, t4].Perm [p, q, r])
    (hp : p.hd = b ∧ p.lst = c ∨ p.hd = c ∧ p.lst = b)
    (hq : q.hd = c ∧ q.lst = d ∨ q.hd = d ∧ q.lst = c)
    (hr : r.hd = d ∧ r.lst = a ∨ r.hd = a ∧ r.lst = d)
    (hab : a ≠ b) (hac : a ≠ c) (had : a ≠ d)
    (hbc : b ≠ c) (hbd : b ≠ d) (hcd : c ≠ d)
    (hIq : ∀ x ∈ q.verts, x = q.hd ∨ x = q.lst ∨ (x ≠ a ∧ x ≠ b ∧ x ≠ c ∧ x ≠ d))
    (hIr : ∀ x ∈ r.verts, x = r.hd ∨ x = r.lst ∨ (x ≠ a ∧ x ≠ b ∧ x ≠ c ∧ x ≠ d))
    (hwf : ∀ s', s' = t1 ∨ s' = t2 ∨ s' = t3 ∨ s' = t4 → ∀ v ∈ s'.verts, v < rf0.next) :
    ∃ (stf : PatchesState P) (pa : AutofillPatch),
      add_sides dist lerp (initPatches rf0) [t1, t2, t3, t4] = some stf ∧
      stf.patches = [pa] ∧ stf.current_sides = [] ∧
      pa.sides.length = 4 ∧ IsClosedChain pa.sides := by
  obtain ⟨stf, pa, s4, h1, h2, h3, _, h5, h6, _, _, _⟩ :=
    add_sides_quad_spec dist lerp rf0 t1 t2 t3 t4 p q r a b c d ha hb hlt1 hlp hlq hlr
      hperm hp hq hr hab hac had hbc hbd hcd hIq hIr hwf
  exact ⟨stf, pa, h1, h2, h3, h5, h6⟩

/-- Witness for C1 on a concrete quadrilateral: sides `[0,1]`, `[1,2]`,
`[2,3]`, `[3,0]` over a 4-vertex arena. -/
theorem add_side_quad_closes_patch_witness :
    ∃ (stf : PatchesState ℚ) (pa : AutofillPatch),
      add_sides Qdist Qlerp (initPatches ⟨4, fun _ => (0 : ℚ), ∅⟩)
        [Side.mk [0, 1], Side.mk [1, 2], Side.mk [2, 3], Side.mk [3, 0]] = some stf ∧
      stf.patches = [pa] ∧ stf.current_sides = [] ∧
      pa.sides.length = 4 ∧ IsClosedChain pa.sides :=
  add_side_quad_closes_patch Qdist Qlerp ⟨4, fun _ => (0 : ℚ), ∅⟩
    (Side.mk [0, 1]) (Side.mk [1, 2]) (Side.mk [2, 3]) (Side.mk [3, 0])
    (Side.mk [1, 2]) (Side.mk [2, 3]) (Side.mk [3, 0]) 0 1 2 3
    (by decide) (by decide) (by decide) (by decide) (by decide) (by decide)
    (List.Perm.refl _)
    (Or.inl (by decide)) (Or.inl (by decide)) (Or.inl (by decide))
    (by decide) (by decide) (by decide) (by decide) (by decide) (by decide)
    (by decide) (by decide)
    (fun s' h => by rcases h with rfl | rfl | rfl | rfl <;> decide)

/-- C2 (amended): when the 4 sides of a quadrilateral loop close a patch via
`add_side` and their total vertex count is odd, the closure step — PROVIDED
the resubdivided (last-added) side has positive arclength — increases exactly
that side's vertex count by exactly 1, making the patch's total even; when the
total is already even, no side is resubdivided and the counts are unchanged. -/
theorem add_side_parity_fix {P : Type} [Inhabited P]
    (dist : P → P → ℚ) (lerp : P → P → ℚ → P) (rf0 : RF P)
    (t1 t2 t3 t4 p q r : Side) (a b c d : Nat)
    (ha : t1.hd = a) (hb : t1.lst = b)
    (hlt1 : 2 ≤ t1.verts.length)
    (hlp : 2 ≤ p.verts.length) (hlq : 2 ≤ q.verts.length) (hlr : 2 ≤ r.verts.length)
    (hperm : [t2, t3, t4].Perm [p, q, r])
    (hp : p.hd = b ∧ p.lst = c ∨ p.hd = c ∧ p.lst = b)
    (hq : q.hd = c ∧ q.lst = d ∨ q.hd = d ∧ q.lst = c)
    (hr : r.hd = d ∧ r.lst = a ∨ r.hd = a ∧ r.lst = d)
    (hab : a ≠ b) (hac : a ≠ c) (had : a ≠ d)
    (hbc : b ≠ c) (hbd : b ≠ d) (hcd : c ≠ d)
    (hIq : ∀ x ∈ q.verts, x = q.hd ∨ x = q.lst ∨ (x ≠ a ∧ x ≠ b ∧ x ≠ c ∧ x ≠ d))
    (hIr : ∀ x ∈ r.verts, x = r.hd ∨ x = r.lst ∨ (x ≠ a ∧ x ≠ b ∧ x ≠ c ∧ x ≠ d))
    (hwf : ∀ s', s' = t1 ∨ s' = t2 ∨ s' = t3 ∨ s' = t4 → ∀ v ∈ s'.verts, v < rf0.next)
    (hdist : ∀ x y, 0 ≤ dist x y)
    (hpos4 : 0 < (lensOf dist (t4.verts.map rf0.pos)).sum) :
    ∃ (stf : PatchesState P) (pa : AutofillPatch),
      add_sides dist lerp (initPatches rf0) [t1, t2, t3, t4] = some stf ∧
      stf.patches = [pa] ∧
      (([t1, t2, t3, t4].map (fun s => s.verts.length)).sum % 2 = 1 →
        (pa.sides.map (fun s => s.verts.length)).Perm
          [t1.verts.length, t2.verts.length, t3.verts.length, t4.verts.length + 1]) ∧
      (¬ (([t1, t2, t3, t4].map (fun s => s.verts.length)).sum % 2 = 1) →
        (pa.sides.map (fun s => s.verts.length)).Perm
          [t1.verts.length, t2.verts.length, t3.verts.length, t4.verts.length]) ∧
      (pa.sides.map (fun s => s.verts.length)).sum % 2 = 0 := by
  obtain ⟨stf, pa, s4, h1, h2, _, _, _, _, heven, hodd, hplen⟩ :=
    add_sides_quad_spec dist lerp rf0 t1 t2 t3 t4 p q r a b c d ha hb hlt1 hlp hlq hlr
      hperm hp hq hr hab hac had hbc hbd hcd hIq hIr hwf
  have hlt4 : 2 ≤ t4.verts.length := by
    have h4mem : t4 = p ∨ t4 = q ∨ t4 = r := by
      simpa using hperm.mem_iff.mp (show t4 ∈ [t2, t3, t4] by simp)
    rcases h4mem with h | h | h <;> rw [h] <;> assumption
  have hsum := hplen.sum_eq
  simp only [List.sum_cons, List.sum_nil] at hsum
  by_cases hpar : ([t1, t2, t3, t4].map (fun s => s.verts.length)).sum % 2 = 1
  · have hs4 : s4 = (Side.change_subdivisions dist lerp rf0 t4 1).1 := hodd hpar
    have hlen : s4.verts.length = t4.verts.length + 1 := by
      rw [hs4]
      have := (change_subdivisions_resample dist lerp rf0 t4 1 hlt4 (by omega) hdist hpos4
        (hwf t4 (Or.inr (Or.inr (Or.inr rfl))))).1
      rw [this]
      omega
    refine ⟨stf, pa, h1, h2, fun _ => ?_, fun h => absurd hpar h, ?_⟩
    · rw [← hlen]
      exact hplen
    · have htot : ([t1, t2, t3, t4].map (fun s => s.verts.length)).sum
          = t1.verts.length + t2.verts.length + t3.verts.length + t4.verts.length := by
        simp only [List.map_cons, List.map_nil, List.sum_cons, List.sum_nil]
        omega
      rw [htot] at hpar
      omega
  · have hs4 : s4 = t4 := (heven hpar).1
    refine ⟨stf, pa, h1, h2, fun h => absurd h hpar, fun _ => ?_, ?_⟩
    · rw [← hs4]
      exact hplen
    · have htot : ([t1, t2, t3, t4].map (fun s => s.verts.length)).sum
          = t1.verts.length + t2.verts.length + t3.verts.length + t4.verts.length := by
        simp only [List.map_cons, List.map_nil, List.sum_cons, List.sum_nil]
        omega
      rw [htot] at hpar
      rw [hs4] at hsum
      omega

/-- Witness for the amended C2 on a concrete quadrilateral with odd total
vertex count (3 + 2 + 2 + 2 = 9) and a last side of positive arclength. -/
theorem add_side_parity_fix_witness :
    ∃ (stf : PatchesState ℚ) (pa : AutofillPatch),
      add_sides Qdist Qlerp (initPatches ⟨5, fun i => (i : ℚ), ∅⟩)
        [Side.mk [0, 4, 1], Side.mk [1, 2], Side.mk [2, 3], Side.mk [3, 0]] = some stf ∧
      stf.patches = [pa] ∧
      (([Side.mk [0, 4, 1], Side.mk [1, 2], Side.mk [2, 3], Side.mk [3, 0]].map
          (fun s => s.verts.length)).sum % 2 = 1 →
        (pa.sides.map (fun s => s.verts.length)).Perm
          [(Side.mk [0, 4, 1]).verts.length, (Side.mk [1, 2]).verts.length,
            (Side.mk [2, 3]).verts.length, (Side.mk [3, 0]).verts.length + 1]) ∧
      (¬ (([Side.mk [0, 4, 1], Side.mk [1, 2], Side.mk [2, 3], Side.mk [3, 0]].map
          (fun s => s.verts.length)).sum % 2 = 1) →
        (pa.sides.map (fun s => s.verts.length)).Perm
          [(Side.mk [0, 4, 1]).verts.length, (Side.mk [1, 2]).verts.length,
            (Side.mk [2, 3]).verts.length, (Side.mk [3, 0]).verts.length]) ∧
      (pa.sides.map (fun s => s.verts.length)).sum % 2 = 0 :=
  add_side_parity_fix Qdist Qlerp ⟨5, fun i => (i : ℚ), ∅⟩
    (Side.mk [0, 4, 1]) (Side.mk [1, 2]) (Side.mk [2, 3]) (Side.mk [3, 0])
    (Side.mk [1, 2]) (Side.mk [2, 3]) (Side.mk [3, 0]) 0 1 2 3
    (by decide) (by decide) (by decide) (by decide) (by decide) (by decide)
    (List.Perm.refl _)
    (Or.inl (by decide)) (Or.inl (by decide)) (Or.inl (by decide))
    (by decide) (by decide) (by decide) (by decide) (by decide) (by decide)
    (by decide) (by decide)
    (fun s' h => by rcases h with rfl | rfl | rfl | rfl <;> decide)
    (fun x y => abs_nonneg _)
    (by norm_num [lensOf, Qdist])

/-- C2: the claim as stated is false. With the quadrilateral `[0,4,1]`,
`[1,2]`, `[2,3]`, `[3,0]` (total vertex count 9, odd) over an arena where all
positions coincide, the closure's `change_subdivisions(+1)` on the last side
is defeated by the zero arclength — `restroke` returns no points and the side
keeps 2 vertices — so the closed patch's total vertex count is still 9, odd. -/
theorem add_side_parity_counterexample :
    ∃ (stf : PatchesState ℚ) (pa : AutofillPatch),
      add_sides Qdist Qlerp (initPatches ⟨5, fun _ => (0 : ℚ), ∅⟩)
        [Side.mk [0, 4, 1], Side.mk [1, 2], Side.mk [2, 3], Side.mk [3, 0]] = some stf ∧
      stf.patches = [pa] ∧
      ([Side.mk [0, 4, 1], Side.mk [1, 2], Side.mk [2, 3], Side.mk [3, 0]].map
        (fun s => s.verts.length)).sum % 2 = 1 ∧
      (pa.sides.map (fun s => s.verts.length)).sum % 2 = 1 := by
  obtain ⟨stf, pa, s4, h1, h2, _, _, _, _, _, hodd, hplen⟩ :=
    add_sides_quad_spec Qdist Qlerp ⟨5, fun _ => (0 : ℚ), ∅⟩
      (Side.mk [0, 4, 1]) (Side.mk [1, 2]) (Side.mk [2, 3]) (Side.mk [3, 0])
      (Side.mk [1, 2]) (Side.mk [2, 3]) (Side.mk [3, 0]) 0 1 2 3
      (by decide) (by decide) (by decide) (by decide) (by decide) (by decide)
      (List.Perm.refl _)
      (Or.inl (by decide)) (Or.inl (by decide)) (Or.inl (by decide))
      (by decide) (by decide) (by decide) (by decide) (by decide) (by decide)
      (by decide) (by decide)
      (fun s' h => by rcases h with rfl | rfl | rfl | rfl <;> decide)
  have hpar : ([Side.mk [0, 4, 1], Side.mk [1, 2], Side.mk [2, 3], Side.mk [3, 0]].map
      (fun s => s.verts.length)).sum % 2 = 1 := by decide
  have hs4 := hodd hpar
  have hs4len : s4.verts.length = 2 := by
    rw [hs4]
    norm_num [Side.change_subdivisions, restroke, restrokeAux, lensOf, clamp01,
      Qdist, Qlerp, allocVerts]
  refine ⟨stf, pa, h1, h2, hpar, ?_⟩
  have hsum := hplen.sum_eq
  simp only [List.map_cons, List.map_nil, List.sum_cons, List.sum_nil] at hsum
  rw [hsum, hs4len]
  decide

/-! ## PatternCache: expanded patterns and cycling
(autofill_utils.py lines 33-87 and 191-232) -/

/-- `ExpandedPattern`'s service payload: `faces`, `verts`, `sides`
(the side mapping), as deserialized from the pattern-generation service.
The drawn state (`drawn_verts`/`drawn_faces`) holds live host-mesh references
and is recreated on every `draw`; cycling is about which variant's data is
materialized. -/
structure ExpandedPattern (P : Type) where
  faces : List (List Nat)
  verts : List P
  sides : List (List Nat)
  deriving DecidableEq

/-- The pattern-cache fields of `AutofillPatch`: `expanded_patterns` and the
active index `i`. -/
structure PatternCache (P : Type) where
  expanded_patterns : List (ExpandedPattern P)
  i : Int

/-- `AutofillPatch.change(x)` (lines 201-205): destroy the currently drawn
variant, clamp the index — `self.i = min(max(0, self.i + x),
len(self.expanded_patterns) - 1)` — and draw the new one. -/
def PatternCache.change {P : Type} (pc : PatternCache P) (x : Int) : PatternCache P :=
  { pc with i := min (max 0 (pc.i + x)) ((pc.expanded_patterns.length : Int) - 1) }

/-- `AutofillPatch.next` (lines 195-196). -/
def PatternCache.nxt {P : Type} (pc : PatternCache P) : PatternCache P := pc.change 1

/-- `AutofillPatch.prev` (lines 198-199). -/
def PatternCache.prv {P : Type} (pc : PatternCache P) : PatternCache P := pc.change (-1)

/-- The currently materialized variant, `self.expanded_patterns[self.i]`. -/
def PatternCache.active {P : Type} (pc : PatternCache P) : ExpandedPattern P :=
  pc.expanded_patterns.getD pc.i.toNat ⟨[], [], []⟩

/-- C8: the claim as stated is false. With 2 variants and the active index at
the top (index 1, reachable from the freshly loaded index 0 by one `next`),
`next()` clamps at the end (index stays 1) and the following `prev()` moves to
index 0, so the originally materialized variant (faces `[[1]]`) is NOT
restored — variant 0 (faces `[[0]]`) is materialized instead. -/
theorem pattern_cache_counterexample :
    (PatternCache.nxt ⟨[⟨[[0]], [], []⟩, ⟨[[1]], [], []⟩], 0⟩ : PatternCache ℚ)
        = ⟨[⟨[[0]], [], []⟩, ⟨[[1]], [], []⟩], 1⟩ ∧
    ((PatternCache.nxt ⟨[⟨[[0]], [], []⟩, ⟨[[1]], [], []⟩], 1⟩ : PatternCache ℚ)).prv.active
      ≠ (⟨[⟨[[0]], [], []⟩, ⟨[[1]], [], []⟩], 1⟩ : PatternCache ℚ).active := by
  constructor
  · norm_num [PatternCache.nxt, PatternCache.change]
  · norm_num [PatternCache.nxt, PatternCache.prv, PatternCache.change,
      PatternCache.active]

/-- C8 (amended): on a PatternCache with ≥ 2 variants, at every reachable
active index EXCEPT the last one, calling `next()` then `prev()` restores the
cache state exactly, in particular the originally materialized variant's
faces and vertices. At the last index `next()` clamps and `prev()` moves
backward (see the counterexample). -/
theorem pattern_cache_next_prev {P : Type} (pc : PatternCache P)
    (h2 : 2 ≤ pc.expanded_patterns.length)
    (h0 : 0 ≤ pc.i)
    (hi : pc.i < (pc.expanded_patterns.length : Int) - 1) :
    pc.nxt.prv = pc ∧ pc.nxt.prv.active = pc.active := by
  have hmain : pc.nxt.prv = pc := by
    cases pc with
    | mk pats i =>
      simp only [PatternCache.nxt, PatternCache.prv, PatternCache.change] at *
      congr 1
      omega
  exact ⟨hmain, by rw [hmain]⟩

/-- Witness for the amended C8 at a concrete input (2 variants, index 0). -/
theorem pattern_cache_next_prev_witness :
    (PatternCache.nxt (⟨[⟨[[0]], [], []⟩, ⟨[[1]], [], []⟩], 0⟩ : PatternCache ℚ)).prv
        = ⟨[⟨[[0]], [], []⟩, ⟨[[1]], [], []⟩], 0⟩ ∧
    (PatternCache.nxt (⟨[⟨[[0]], [], []⟩, ⟨[[1]], [], []⟩], 0⟩ : PatternCache ℚ)).prv.active
      = (⟨[⟨[[0]], [], []⟩, ⟨[[1]], [], []⟩], 0⟩ : PatternCache ℚ).active :=
  pattern_cache_next_prev ⟨[⟨[[0]], [], []⟩, ⟨[[1]], [], []⟩], 0⟩
    (by norm_num) (by norm_num) (by norm_num)

/-! ## walk_to_corner (autofill_utils.py lines 436-468)

The host mesh (spec §6: an external collaborator) is embedded as edge data
over natural-number handles: endpoints, the `is_manifold`/`is_valid` flags and
the `link_edges` adjacency, plus the finite list of all edges. -/

/-- The host-mesh view used by `walk_to_corner`: modelled from the spec's
external mesh interface (§6), carrying exactly the attributes the walker
reads. -/
structure Mesh where
  edgeVerts : Nat → Nat × Nat
  manifold : Nat → Bool
  valid : Nat → Bool
  linkEdges : Nat → List Nat
  edges : List Nat

/-- `edge.other_vert(v)`: the endpoint of `e` other than `v`. Modelled from
the spec: the host mesh's other-vertex query (§4.2). -/
def Mesh.other_vert (m : Mesh) (e v : Nat) : Nat :=
  if v = (m.edgeVerts e).1 then (m.edgeVerts e).2 else (m.edgeVerts e).1

/-- Basic sanity of the host mesh: link lists mention real edges, without
duplicates, and only edges actually incident to the vertex. -/
structure MeshWF (m : Mesh) : Prop where
  link_sub : ∀ v, ∀ e ∈ m.linkEdges v, e ∈ m.edges
  link_nd : ∀ v, (m.linkEdges v).Nodup
  link_inc : ∀ v e, e ∈ m.linkEdges v → v = (m.edgeVerts e).1 ∨ v = (m.edgeVerts e).2

/-- `{v for e in to_edges for v in e.verts}`. -/
def toVertsOf (m : Mesh) (to_edges : List Nat) : List Nat :=
  to_edges.flatMap (fun e => [(m.edgeVerts e).1, (m.edgeVerts e).2])

/-- The BFS loop of `walk_to_corner` (lines 445-458). State: the pending
queue of `(edge, near-vertex, parent-edge)` triples and the `touched` map
(an association list, most recent first). Each iteration pops one entry; a
fresh edge is recorded in `touched` and either ends the search (its far
vertex lies in `to_verts`) or pushes its continuations, so a fuel of
`|edges| * (|edges| + 1) + |initial queue| + 1` always suffices (proved
below). Fuel exhaustion, which cannot happen, is the outer `none`. -/
def walkBFS (m : Mesh) (toVerts : List Nat) :
    Nat → List (Nat × Nat × Option Nat) → List (Nat × Nat × Option Nat) →
    Option (Option Nat × List (Nat × Nat × Option Nat))
  | 0, _, _ => none
  | _ + 1, [], touched => some (none, touched)
  | fuel + 1, (ec, v0, ep) :: rest, touched =>
    if (touched.lookup ec).isSome then walkBFS m toVerts fuel rest touched
    else
      let touched' := (ec, v0, ep) :: touched
      let v1 := m.other_vert ec v0
      if v1 ∈ toVerts then some (some ec, touched')
      else
        let nedges := ((m.linkEdges v1).filter
          (fun en => en != ec && !(m.manifold en) && m.valid en)).map
            (fun en => (en, v1, some ec))
        walkBFS m toVerts fuel (rest ++ nedges) touched'

/-- The walk-back loop of `walk_to_corner` (lines 460-468): follow parent
pointers from the found edge down to `from_vert`, collecting the edges
corner-first. Parents were touched strictly earlier, so `|touched| + 1` fuel
suffices (proved below). -/
def walkBack (m : Mesh) (from_vert : Nat) (touched : List (Nat × Nat × Option Nat)) :
    Nat → Nat → Option (List Nat)
  | 0, _ => none
  | fuel + 1, ec =>
    match touched.lookup ec with
    | none => none
    | some (v0, ep) =>
      if v0 = from_vert then some [ec]
      else
        match ep with
        | none => none
        | some e' =>
          match walkBack m from_vert touched fuel e' with
          | none => none
          | some l => some (ec :: l)

/-- `walk_to_corner(from_vert, to_edges)` (lines 436-468). The returned edge
list runs from the corner back to `from_vert`, as in the source. -/
def walk_to_corner (m : Mesh) (from_vert : Nat) (to_edges : List Nat) : Option (List Nat) :=
  let to_verts := toVertsOf m to_edges
  let init := ((m.linkEdges from_vert).filter
    (fun e => !(m.manifold e) && m.valid e)).map
      (fun e => (e, from_vert, (none : Option Nat)))
  match walkBFS m to_verts (m.edges.length * (m.edges.length + 1) + init.length + 1)
      init [] with
  | none => none
  | some (none, _) => none
  | some (some found, touched) => walkBack m from_vert touched (touched.length + 1) found

/-- A walk along boundary-type (non-manifold), valid edges, starting at a
vertex and following `other_vert` across each edge. -/
inductive NMWalk (m : Mesh) : Nat → List Nat → Nat → Prop
  | nil (v : Nat) : NMWalk m v [] v
  | cons {v w e : Nat} {es : List Nat} :
      e ∈ m.linkEdges v → m.manifold e = false → m.valid e = true →
      NMWalk m (m.other_vert e v) es w → NMWalk m v (e :: es) w

/-- Invariant of a queue or touched entry `(e, v0, ep)`: the edge is
boundary-type and valid, incident to its near vertex `v0`, and `v0` is the
start vertex (no parent) or the far vertex of the already-touched parent. -/
def EntryInv (m : Mesh) (fromVert : Nat) (T : List (Nat × Nat × Option Nat))
    (en : Nat × Nat × Option Nat) : Prop :=
  m.manifold en.1 = false ∧ m.valid en.1 = true ∧ en.1 ∈ m.linkEdges en.2.1 ∧
  (match en.2.2 with
   | none => en.2.1 = fromVert
   | some e2 => ∃ v0' ep', T.lookup e2 = some (v0', ep') ∧ en.2.1 = m.other_vert e2 v0')

/-- Invariant of the `touched` association list: every entry satisfies
`EntryInv` relative to the strictly earlier entries (its tail) and keys are
never repeated. -/
def TchInv (m : Mesh) (fromVert : Nat) : List (Nat × Nat × Option Nat) → Prop
  | [] => True
  | en :: rest => EntryInv m fromVert rest en ∧ rest.lookup en.1 = none ∧
      TchInv m fromVert rest

/-- A key with no binding does not occur among the keys. -/
theorem lookup_none_not_mem (a : Nat) :
    ∀ l : List (Nat × Nat × Option Nat), l.lookup a = none → a ∉ l.map Prod.fst := by
  intro l
  induction l with
  | nil => intro _ h; simp at h
  | cons en rest ih =>
    intro h hmem
    simp only [List.lookup] at h
    cases heq : (a == en.1) with
    | true =>
      rw [heq] at h
      simp at h
    | false =>
      rw [heq] at h
      simp only [List.map_cons, List.mem_cons] at hmem
      rcases hmem with h' | h'
      · rw [h'] at heq
        simp at heq
      · exact ih h h'

/-- Lookups made in a suffix of a `TchInv` list survive in the whole list. -/
theorem TchInv_lookup_mono (m : Mesh) (fromVert : Nat) :
    ∀ T S : List (Nat × Nat × Option Nat), TchInv m fromVert T → S.IsSuffix T →
      ∀ e x, S.lookup e = some x → T.lookup e = some x := by
  intro T
  induction T with
  | nil =>
    intro S _ hs e x hx
    rw [List.suffix_nil.mp hs] at hx
    simp at hx
  | cons en rest ih =>
    intro S hT hs e x hx
    rcases List.suffix_cons_iff.mp hs with h | h
    · rw [← h]
      exact hx
    · have hr : rest.lookup e = some x := ih rest hT.2.2 (List.suffix_refl rest) e x
        (ih S ?_ ?_ e x hx)
      · have hne : (e == en.1) = false := by
          rw [beq_eq_false_iff_ne]
          intro hbe
          have h0 : rest.lookup en.1 = none := hT.2.1
          rw [← hbe] at h0
          rw [h0] at hr
          exact absurd hr (by simp)
        show List.lookup e (en :: rest) = some x
        simp only [List.lookup, hne]
        exact hr
      · exact hT.2.2
      · exact h

/-- `TchInv` restricts to suffixes. -/
theorem TchInv_suffix (m : Mesh) (fromVert : Nat) :
    ∀ T S : List (Nat × Nat × Option Nat), TchInv m fromVert T → S.IsSuffix T →
      TchInv m fromVert S := by
  intro T
  induction T with
  | nil =>
    intro S _ hs
    rw [List.suffix_nil.mp hs]
    trivial
  | cons en rest ih =>
    intro S hT hs
    rcases List.suffix_cons_iff.mp hs with h | h
    · rw [h]
      exact hT
    · exact ih S hT.2.2 h

/-- Every entry of a `TchInv` list is a boundary-type valid edge incident to
its near vertex. -/
theorem TchInv_entry (m : Mesh) (fromVert : Nat) :
    ∀ T : List (Nat × Nat × Option Nat), TchInv m fromVert T →
      ∀ en ∈ T, m.manifold en.1 = false ∧ m.valid en.1 = true ∧
        en.1 ∈ m.linkEdges en.2.1 := by
  intro T
  induction T with
  | nil => intro _ en h; exact absurd h (List.not_mem_nil en)
  | cons x rest ih =>
    intro hT en hen
    rcases List.mem_cons.mp hen with rfl | h
    · exact ⟨hT.1.1, hT.1.2.1, hT.1.2.2.1⟩
    · exact ih hT.2.2 en h

/-- A duplicate-free list contained in `L` is no longer than `L`. -/
theorem nodup_sub_length {l L : List Nat} (h : l.Nodup) (hs : ∀ x ∈ l, x ∈ L) :
    l.length ≤ L.length := by
  calc l.length = l.toFinset.card := (List.toFinset_card_of_nodup h).symm
    _ ≤ L.toFinset.card := Finset.card_le_card (fun x hx =>
        List.mem_toFinset.mpr (hs x (List.mem_toFinset.mp hx)))
    _ ≤ L.length := L.toFinset_card_le

/-- `TchInv` keys are duplicate-free. -/
theorem TchInv_keys_nodup (m : Mesh) (fromVert : Nat) :
    ∀ T : List (Nat × Nat × Option Nat), TchInv m fromVert T →
      (T.map Prod.fst).Nodup := by
  intro T
  induction T with
  | nil => intro _; simp
  | cons en rest ih =>
    intro hT
    simp only [List.map_cons, List.nodup_cons]
    exact ⟨lookup_none_not_mem en.1 rest hT.2.1, ih hT.2.2⟩

/-- For a well-formed mesh the touched list never exceeds the edge count. -/
theorem TchInv_length_le (m : Mesh) (wf : MeshWF m) (fromVert : Nat)
    (T : List (Nat × Nat × Option Nat)) (hT : TchInv m fromVert T) :
    T.length ≤ m.edges.length := by
  have h1 : (T.map Prod.fst).length ≤ m.edges.length := by
    apply nodup_sub_length (TchInv_keys_nodup m fromVert T hT)
    intro x hx
    obtain ⟨en, hen, rfl⟩ := List.mem_map.mp hx
    exact wf.link_sub _ _ ((TchInv_entry m fromVert T hT en hen).2.2)
  simpa using h1

/-- Appending one more boundary edge to a boundary walk. -/
theorem NMWalk_append_one (m : Mesh) {u v e : Nat} {es : List Nat}
    (h : NMWalk m u es v) (he : e ∈ m.linkEdges v) (hm : m.manifold e = false)
    (hv : m.valid e = true) : NMWalk m u (es ++ [e]) (m.other_vert e v) := by
  revert he
  induction h with
  | nil w => intro he; exact NMWalk.cons he hm hv (NMWalk.nil _)
  | cons he' hm' hv' _ ih => intro he; exact NMWalk.cons he' hm' hv' (ih he)

/-- Correctness of the walk-back: following parent pointers from any touched
edge reproduces a boundary walk from `from_vert` to that edge's far vertex,
with the edge list returned corner-first. -/
theorem walkBack_spec (m : Mesh) (fromVert : Nat)
    (T : List (Nat × Nat × Option Nat)) (hT : TchInv m fromVert T) :
    ∀ S : List (Nat × Nat × Option Nat), S.IsSuffix T →
      ∀ e v0 ep, S.lookup e = some (v0, ep) →
      ∀ fuel, S.length + 1 ≤ fuel →
      ∃ l, walkBack m fromVert T fuel e = some (e :: l) ∧
        NMWalk m fromVert (e :: l).reverse (m.other_vert e v0) := by
  intro S
  induction S with
  | nil =>
    intro _ e v0 ep h
    simp [List.lookup] at h
  | cons en S' ih =>
    obtain ⟨e1, v1, ep1⟩ := en
    intro hsuf e v0 ep hlk fuel hfuel
    have hSinv : TchInv m fromVert ((e1, v1, ep1) :: S') :=
      TchInv_suffix m fromVert T _ hT hsuf
    obtain ⟨hEn, hfresh, hS'inv⟩ := hSinv
    have hsuf' : S'.IsSuffix T := (List.suffix_cons (e1, v1, ep1) S').trans hsuf
    obtain ⟨f, rfl⟩ : ∃ f, fuel = f + 1 := ⟨fuel - 1, by omega⟩
    simp only [List.lookup] at hlk
    cases heq : (e == e1) with
    | true =>
      rw [heq] at hlk
      have hkey : e = e1 := by simpa using heq
      have hv1 : v1 = v0 := by
        have := hlk
        simp at this
        exact this.1
      have hep1 : ep1 = ep := by
        have := hlk
        simp at this
        exact this.2
      subst hkey
      subst hv1
      subst hep1
      have hTlk : T.lookup e = some (v1, ep1) := by
        apply TchInv_lookup_mono m fromVert T ((e, v1, ep1) :: S') hT hsuf
        simp [List.lookup]
      have hman : m.manifold e = false := hEn.1
      have hvalid : m.valid e = true := hEn.2.1
      have hinc : e ∈ m.linkEdges v1 := hEn.2.2.1
      by_cases hv0 : v1 = fromVert
      · refine ⟨[], ?_, ?_⟩
        · simp only [walkBack, hTlk]
          rw [if_pos hv0]
        · simp only [List.reverse_cons, List.reverse_nil, List.nil_append]
          subst hv0
          exact NMWalk.cons hinc hman hvalid (NMWalk.nil _)
      · cases hep : ep1 with
        | none =>
          exfalso
          have hpar := hEn.2.2.2
          rw [hep] at hpar
          exact hv0 hpar
        | some e2 =>
          have hpar := hEn.2.2.2
          rw [hep] at hpar
          obtain ⟨v0', ep', hlk2, hv0eq⟩ := hpar
          have hv0eq2 : v1 = m.other_vert e2 v0' := hv0eq
          obtain ⟨l', hwb', hwalk'⟩ := ih hsuf' e2 v0' ep' hlk2 f
            (by simp only [List.length_cons] at hfuel; omega)
          refine ⟨e2 :: l', ?_, ?_⟩
          · simp only [walkBack, hTlk]
            rw [if_neg hv0, hep]
            simp only [hwb']
          · rw [List.reverse_cons]
            rw [hv0eq2]
            apply NMWalk_append_one m ?_ ?_ hman hvalid
            · exact hwalk'
            · rw [← hv0eq2]
              exact hinc
    | false =>
      rw [heq] at hlk
      obtain ⟨l, hl1, hl2⟩ := ih hsuf' e v0 ep hlk (f + 1)
        (by simp only [List.length_cons] at hfuel; omega)
      exact ⟨l, hl1, hl2⟩

/-- `EntryInv` only reads the touched map positively, so it survives growth. -/
theorem EntryInv_mono (m : Mesh) (fromVert : Nat)
    {T T2 : List (Nat × Nat × Option Nat)}
    (h : ∀ e x, T.lookup e = some x → T2.lookup e = some x) :
    ∀ en, EntryInv m fromVert T en → EntryInv m fromVert T2 en := by
  intro en hen
  obtain ⟨e1, v1, ep1⟩ := en
  obtain ⟨h1, h2, h3, h4⟩ := hen
  refine ⟨h1, h2, h3, ?_⟩
  cases ep1 with
  | none => exact h4
  | some e2 =>
    obtain ⟨v0', ep', hl, he⟩ := h4
    exact ⟨v0', ep', h e2 (v0', ep') hl, he⟩

/-- Full specification of the BFS loop: with valid queue and touched
invariants and enough fuel, it terminates; a found edge's far vertex lies in
`toVerts`; on failure every queued edge ends up touched, and every touched
edge has been fully expanded — its far vertex is not a target and all its
boundary continuations are touched too. -/
theorem walkBFS_spec (m : Mesh) (wf : MeshWF m) (fromVert : Nat) (toVerts : List Nat) :
    ∀ (fuel : Nat) (q T : List (Nat × Nat × Option Nat)),
      TchInv m fromVert T →
      (∀ en ∈ q, EntryInv m fromVert T en) →
      (m.edges.length - T.length) * (m.edges.length + 1) + q.length < fuel →
      ∃ res T2, walkBFS m toVerts fuel q T = some (res, T2) ∧
        TchInv m fromVert T2 ∧
        (∀ e x, T.lookup e = some x → T2.lookup e = some x) ∧
        (∀ found, res = some found → ∃ v0 ep, T2.lookup found = some (v0, ep) ∧
            m.other_vert found v0 ∈ toVerts) ∧
        (res = none →
            (∀ en ∈ q, (T2.lookup en.1).isSome) ∧
            (∀ e v0 ep, T2.lookup e = some (v0, ep) →
              T.lookup e = some (v0, ep) ∨
              (m.other_vert e v0 ∉ toVerts ∧
               ∀ en ∈ m.linkEdges (m.other_vert e v0),
                 m.manifold en = false → m.valid en = true → en ≠ e →
                 (T2.lookup en).isSome))) := by
  intro fuel
  induction fuel with
  | zero =>
    intro q T _ _ hb
    omega
  | succ fuel ih =>
    intro q T hT hq hb
    cases q with
    | nil =>
      refine ⟨none, T, rfl, hT, fun e x h => h, fun found hf => absurd hf (by simp), ?_⟩
      intro _
      exact ⟨fun en hen => absurd hen (List.not_mem_nil en), fun e v0 ep h => Or.inl h⟩
    | cons en rest =>
      obtain ⟨ec, v0, ep⟩ := en
      by_cases htc : (T.lookup ec).isSome
      · -- already-touched edge: drop it
        obtain ⟨A, hA⟩ : ∃ A, (m.edges.length - T.length) * (m.edges.length + 1) = A :=
          ⟨_, rfl⟩
        obtain ⟨res, T2, h1, h2, h3, h4, h5⟩ := ih rest T hT
          (fun x hx => hq x (List.mem_cons_of_mem _ hx))
          (by rw [hA] at hb ⊢; simp only [List.length_cons] at hb; omega)
        refine ⟨res, T2, ?_, h2, h3, h4, ?_⟩
        · rw [walkBFS, if_pos htc]
          exact h1
        · intro hres
          obtain ⟨hb1, hb2⟩ := h5 hres
          refine ⟨?_, hb2⟩
          intro en hen
          rcases List.mem_cons.mp hen with rfl | h
          · obtain ⟨x, hx⟩ := Option.isSome_iff_exists.mp htc
            rw [h3 _ _ hx]
            rfl
          · exact hb1 en h
      · -- fresh edge
        have htnone : T.lookup ec = none := Option.not_isSome_iff_eq_none.mp htc
        have hT2 : TchInv m fromVert ((ec, v0, ep) :: T) :=
          ⟨hq (ec, v0, ep) (List.mem_cons_self _ _), htnone, hT⟩
        have hmono : ∀ e x, T.lookup e = some x →
            List.lookup e ((ec, v0, ep) :: T) = some x := by
          intro e x h
          simp only [List.lookup]
          cases heq : (e == ec) with
          | true =>
            rw [show e = ec from by simpa using heq] at h
            rw [h] at htnone
            exact absurd htnone (by simp)
          | false => exact h
        have hlkec : List.lookup ec ((ec, v0, ep) :: T) = some (v0, ep) := by
          simp [List.lookup]
        by_cases hin : m.other_vert ec v0 ∈ toVerts
        · -- corner reached
          refine ⟨some ec, (ec, v0, ep) :: T, ?_, hT2, hmono, ?_, ?_⟩
          · rw [walkBFS, if_neg htc]
            simp only []
            rw [if_pos hin]
          · intro found hf
            injection hf with hf
            subst hf
            exact ⟨v0, ep, hlkec, hin⟩
          · intro hres
            exact absurd hres (by simp)
        · -- expand the far vertex
          have hlink_le : (m.linkEdges (m.other_vert ec v0)).length ≤ m.edges.length :=
            nodup_sub_length (wf.link_nd _) (fun x hx => wf.link_sub _ x hx)
          have hned_le : (((m.linkEdges (m.other_vert ec v0)).filter
              (fun en => en != ec && !(m.manifold en) && m.valid en)).map
                (fun en => (en, m.other_vert ec v0, some ec))).length
              ≤ m.edges.length := by
            rw [List.length_map]
            exact le_trans (List.length_filter_le _ _) hlink_le
          have hT2len : ((ec, v0, ep) :: T).length ≤ m.edges.length :=
            TchInv_length_le m wf fromVert _ hT2
          have hTlt : T.length < m.edges.length := by
            simp only [List.length_cons] at hT2len
            omega
          have hqinv2 : ∀ x ∈ rest ++ ((m.linkEdges (m.other_vert ec v0)).filter
              (fun en => en != ec && !(m.manifold en) && m.valid en)).map
                (fun en => (en, m.other_vert ec v0, some ec)),
              EntryInv m fromVert ((ec, v0, ep) :: T) x := by
            intro x hx
            rcases List.mem_append.mp hx with h | h
            · exact EntryInv_mono m fromVert hmono x
                (hq x (List.mem_cons_of_mem _ h))
            · obtain ⟨en2, hen2, rfl⟩ := List.mem_map.mp h
              obtain ⟨hmem2, hpred⟩ := List.mem_filter.mp hen2
              simp only [Bool.and_eq_true, bne_iff_ne, ne_eq, Bool.not_eq_true'] at hpred
              exact ⟨hpred.1.2, hpred.2, hmem2, ⟨v0, ep, hlkec, rfl⟩⟩
          obtain ⟨A, hA⟩ : ∃ A,
              (m.edges.length - (T.length + 1)) * (m.edges.length + 1) = A := ⟨_, rfl⟩
          have hstep : (m.edges.length - T.length) * (m.edges.length + 1)
              = A + (m.edges.length + 1) := by
            rw [← hA]
            have h5 : m.edges.length - T.length
                = (m.edges.length - (T.length + 1)) + 1 := by omega
            rw [h5]
            ring
          obtain ⟨res, T2, hrun, hT2f, hmono2, h4a, h4b⟩ := ih
            (rest ++ ((m.linkEdges (m.other_vert ec v0)).filter
              (fun en => en != ec && !(m.manifold en) && m.valid en)).map
                (fun en => (en, m.other_vert ec v0, some ec)))
            ((ec, v0, ep) :: T) hT2 hqinv2
            (by
              rw [hstep] at hb
              simp only [List.length_cons, List.length_append] at hb ⊢
              rw [hA]
              omega)
          refine ⟨res, T2, ?_, hT2f, fun e x h => hmono2 e x (hmono e x h), h4a, ?_⟩
          · rw [walkBFS, if_neg htc]
            simp only []
            rw [if_neg hin]
            exact hrun
          · intro hres
            obtain ⟨hb1, hb2⟩ := h4b hres
            constructor
            · intro x hx
              rcases List.mem_cons.mp hx with rfl | h
              · rw [hmono2 _ _ hlkec]
                rfl
              · exact hb1 x (List.mem_append_left _ h)
            · intro e v0' ep' hl
              rcases hb2 e v0' ep' hl with h | h
              · by_cases hee : e = ec
                · subst hee
                  rw [hlkec] at h
                  injection h with h
                  injection h with hv hep2
                  subst hv
                  refine Or.inr ⟨hin, ?_⟩
                  intro en2 hen2 hm2 hv2 hne2
                  apply hb1 (en2, m.other_vert e v0, some e)
                  apply List.mem_append_right
                  apply List.mem_map.mpr
                  refine ⟨en2, ?_, rfl⟩
                  apply List.mem_filter.mpr
                  refine ⟨hen2, ?_⟩
                  simp [hne2, hm2, hv2]
                · left
                  simp only [List.lookup] at h
                  rw [show (e == ec) = false from by simpa using hee] at h
                  exact h
              · exact Or.inr h

/-- A successful association-list lookup exhibits membership. -/
theorem lookup_mem_assoc (a : Nat) (b : Nat × Option Nat) :
    ∀ l : List (Nat × Nat × Option Nat), l.lookup a = some b → (a, b) ∈ l := by
  intro l
  induction l with
  | nil => intro h; simp [List.lookup] at h
  | cons en rest ih =>
    intro h
    simp only [List.lookup] at h
    cases heq : (a == en.1) with
    | true =>
      rw [heq] at h
      injection h with h
      have hae : a = en.1 := by simpa using heq
      exact List.mem_cons.mpr (Or.inl (by rw [hae, ← h]))
    | false =>
      rw [heq] at h
      exact List.mem_cons.mpr (Or.inr (ih h))

/-- `other_vert` seen from either endpoint: from `u` it lands on `v0` or on
the far vertex seen from `v0`. -/
theorem other_vert_cases (m : Mesh) {e u v0 : Nat}
    (hu : u = (m.edgeVerts e).1 ∨ u = (m.edgeVerts e).2)
    (hv : v0 = (m.edgeVerts e).1 ∨ v0 = (m.edgeVerts e).2) :
    m.other_vert e u = v0 ∨ m.other_vert e u = m.other_vert e v0 := by
  unfold Mesh.other_vert
  rcases hu with h1 | h1 <;> rcases hv with h2 | h2 <;> subst h1 <;> subst h2 <;>
    split_ifs <;> simp_all

/-- `other_vert` is an involution on the edge's endpoints. -/
theorem other_vert_invol (m : Mesh) {e v : Nat}
    (hv : v = (m.edgeVerts e).1 ∨ v = (m.edgeVerts e).2) :
    m.other_vert e (m.other_vert e v) = v := by
  unfold Mesh.other_vert
  rcases hv with h | h <;> subst h <;> split_ifs <;> simp_all

/-- The set of vertices the finished BFS can account for: the start vertex
and the far vertices of the touched directed edges. -/
def bfsReach (m : Mesh) (fromVert : Nat) (T2 : List (Nat × Nat × Option Nat))
    (w : Nat) : Prop :=
  w = fromVert ∨ ∃ e v0 ep, T2.lookup e = some (v0, ep) ∧ w = m.other_vert e v0

/-- The near vertex of every touched entry is itself BFS-reachable. -/
theorem TchInv_near_reach (m : Mesh) (fromVert : Nat) :
    ∀ T : List (Nat × Nat × Option Nat), TchInv m fromVert T →
      ∀ e v0 ep, T.lookup e = some (v0, ep) → bfsReach m fromVert T v0 := by
  intro T
  induction T with
  | nil => intro _ e v0 ep h; simp [List.lookup] at h
  | cons en rest ih =>
    obtain ⟨e1, v1, ep1⟩ := en
    intro hT e v0 ep hl
    obtain ⟨hEn, hfr, hrest⟩ := hT
    have hTfull : TchInv m fromVert ((e1, v1, ep1) :: rest) := ⟨hEn, hfr, hrest⟩
    have hsuf : rest.IsSuffix ((e1, v1, ep1) :: rest) := List.suffix_cons _ _
    simp only [List.lookup] at hl
    cases heq : (e == e1) with
    | true =>
      rw [heq] at hl
      injection hl with hl
      injection hl with hv hep
      subst hv
      have hpar := hEn.2.2.2
      cases ep1 with
      | none => exact Or.inl hpar
      | some e2 =>
        obtain ⟨v0x, epx, hlk2, heq2⟩ := hpar
        exact Or.inr ⟨e2, v0x, epx,
          TchInv_lookup_mono m fromVert _ rest hTfull hsuf e2 _ hlk2, heq2⟩
    | false =>
      rw [heq] at hl
      rcases ih hrest e v0 ep hl with h | ⟨e2, v02, ep2, hlk2, heq2⟩
      · exact Or.inl h
      · exact Or.inr ⟨e2, v02, ep2,
          TchInv_lookup_mono m fromVert _ rest hTfull hsuf e2 _ hlk2, heq2⟩

/-- After the BFS failed (fully expanded its frontier), the set of
BFS-accounted vertices is closed under stepping across any boundary-type
valid edge, so it absorbs every boundary walk from the start vertex. -/
theorem bfs_closure_walk (m : Mesh) (wf : MeshWF m) (fromVert : Nat)
    (toVerts : List Nat) (T2 : List (Nat × Nat × Option Nat))
    (hT2 : TchInv m fromVert T2)
    (hinit : ∀ e ∈ (m.linkEdges fromVert).filter
        (fun e => !(m.manifold e) && m.valid e), (T2.lookup e).isSome)
    (hclos : ∀ e v0 ep, T2.lookup e = some (v0, ep) →
        m.other_vert e v0 ∉ toVerts ∧
        ∀ en ∈ m.linkEdges (m.other_vert e v0),
          m.manifold en = false → m.valid en = true → en ≠ e →
          (T2.lookup en).isSome) :
    ∀ l w, NMWalk m fromVert l w → bfsReach m fromVert T2 w := by
  have hinc : ∀ e v0 ep, T2.lookup e = some (v0, ep) → e ∈ m.linkEdges v0 := by
    intro e v0 ep hl
    exact (TchInv_entry m fromVert T2 hT2 (e, v0, ep)
      (lookup_mem_assoc e (v0, ep) T2 hl)).2.2
  have hfar : ∀ e, (T2.lookup e).isSome → ∀ u, e ∈ m.linkEdges u →
      bfsReach m fromVert T2 (m.other_vert e u) := by
    intro e hs u hu
    obtain ⟨⟨v0, ep⟩, hl⟩ := Option.isSome_iff_exists.mp hs
    have hu' := wf.link_inc u e hu
    have hv' := wf.link_inc v0 e (hinc e v0 ep hl)
    rcases other_vert_cases m hu' hv' with h | h
    · rw [h]
      exact TchInv_near_reach m fromVert T2 hT2 e v0 ep hl
    · rw [h]
      exact Or.inr ⟨e, v0, ep, hl, rfl⟩
  have hstep : ∀ v, bfsReach m fromVert T2 v → ∀ e, e ∈ m.linkEdges v →
      m.manifold e = false → m.valid e = true →
      bfsReach m fromVert T2 (m.other_vert e v) := by
    intro v hv e he hm hval
    rcases hv with rfl | ⟨ex, v0x, epx, hlx, rfl⟩
    · have hts : (T2.lookup e).isSome :=
        hinit e (List.mem_filter.mpr ⟨he, by simp [hm, hval]⟩)
      exact hfar e hts v he
    · by_cases hee : e = ex
      · subst hee
        rw [other_vert_invol m (wf.link_inc v0x e (hinc e v0x epx hlx))]
        exact TchInv_near_reach m fromVert T2 hT2 e v0x epx hlx
      · have hts := (hclos ex v0x epx hlx).2 e he hm hval hee
        exact hfar e hts _ he
  have main : ∀ v l w, NMWalk m v l w → bfsReach m fromVert T2 v →
      bfsReach m fromVert T2 w := by
    intro v l w h
    induction h with
    | nil u => exact fun hv => hv
    | cons he hm hv hrec ih => exact fun hrv => ih (hstep _ hrv _ he hm hv)
  intro l w h
  exact main fromVert l w h (Or.inl rfl)

/-- C9 — `walk_to_corner` explores only boundary-type (non-manifold) valid
edges breadth-first. Soundness: a returned list is a nonempty edge path,
corner-first: reversed, it is a boundary-edge walk from `from_vert` to a
vertex of `to_edges`. Completeness (amended): when it returns `none`, every
boundary-edge walk from `from_vert` that ends at a vertex of `to_edges` ends
at `from_vert` itself — the search tests only far vertices of touched
directed edges, so target vertices met only at `from_vert` are missed. -/
theorem walk_to_corner_spec (m : Mesh) (wf : MeshWF m) (fromVert : Nat)
    (toEdges : List Nat) :
    (∀ l, walk_to_corner m fromVert toEdges = some l →
        l ≠ [] ∧ ∃ w, w ∈ toVertsOf m toEdges ∧ NMWalk m fromVert l.reverse w) ∧
    (walk_to_corner m fromVert toEdges = none →
        ∀ l w, NMWalk m fromVert l w → w ∈ toVertsOf m toEdges → w = fromVert) := by
  have hqinv : ∀ en ∈ ((m.linkEdges fromVert).filter
      (fun e => !(m.manifold e) && m.valid e)).map
        (fun e => (e, fromVert, (none : Option Nat))),
      EntryInv m fromVert [] en := by
    intro en hen
    obtain ⟨e, he, rfl⟩ := List.mem_map.mp hen
    obtain ⟨hmem, hpred⟩ := List.mem_filter.mp he
    simp only [Bool.and_eq_true, Bool.not_eq_true'] at hpred
    exact ⟨hpred.1, hpred.2, hmem, rfl⟩
  obtain ⟨res, T2, hrun, hT2, hmono, h4a, h4b⟩ :=
    walkBFS_spec m wf fromVert (toVertsOf m toEdges)
      (m.edges.length * (m.edges.length + 1) +
        (((m.linkEdges fromVert).filter
          (fun e => !(m.manifold e) && m.valid e)).map
            (fun e => (e, fromVert, (none : Option Nat)))).length + 1)
      (((m.linkEdges fromVert).filter
        (fun e => !(m.manifold e) && m.valid e)).map
          (fun e => (e, fromVert, (none : Option Nat)))) []
      trivial hqinv
      (by simp only [List.length_nil, Nat.sub_zero]; omega)
  cases res with
  | some found =>
    have heval : walk_to_corner m fromVert toEdges =
        walkBack m fromVert T2 (T2.length + 1) found := by
      simp only [walk_to_corner]
      rw [hrun]
    obtain ⟨v0, ep, hlk, hfarin⟩ := h4a found rfl
    obtain ⟨l0, hwb, hwalk⟩ := walkBack_spec m fromVert T2 hT2 T2
      (List.suffix_refl T2) found v0 ep hlk (T2.length + 1) (le_refl _)
    constructor
    · intro l hl
      rw [heval, hwb] at hl
      injection hl with hl
      subst hl
      exact ⟨by simp, m.other_vert found v0, hfarin, hwalk⟩
    · intro hnone
      rw [heval, hwb] at hnone
      exact absurd hnone (by simp)
  | none =>
    have heval : walk_to_corner m fromVert toEdges = none := by
      simp only [walk_to_corner]
      rw [hrun]
    obtain ⟨hb1, hb2⟩ := h4b rfl
    constructor
    · intro l hl
      rw [heval] at hl
      exact absurd hl (by simp)
    · intro _ l w hw hmem
      have hclos : ∀ e v0 ep, T2.lookup e = some (v0, ep) →
          m.other_vert e v0 ∉ toVertsOf m toEdges ∧
          ∀ en ∈ m.linkEdges (m.other_vert e v0),
            m.manifold en = false → m.valid en = true → en ≠ e →
            (T2.lookup en).isSome := by
        intro e v0 ep h
        rcases hb2 e v0 ep h with h' | h'
        · simp [List.lookup] at h'
        · exact h'
      have hinit : ∀ e ∈ (m.linkEdges fromVert).filter
          (fun e => !(m.manifold e) && m.valid e), (T2.lookup e).isSome := by
        intro e he
        exact hb1 (e, fromVert, none)
          (List.mem_map.mpr ⟨e, he, rfl⟩)
      have hR := bfs_closure_walk m wf fromVert (toVertsOf m toEdges) T2 hT2
        hinit hclos l w hw
      rcases hR with h | ⟨e, v0, ep, hl2, rfl⟩
      · exact h
      · exact absurd hmem (hclos e v0 ep hl2).1

/-- A triangle of boundary edges 0-1-2 (edges 0,1,2) plus a manifold edge 3
from vertex 0 to vertex 5: the target edge for the counterexample. -/
def triMesh : Mesh where
  edgeVerts := fun e =>
    if e = 0 then (0, 1) else if e = 1 then (1, 2) else if e = 2 then (2, 0)
    else (0, 5)
  manifold := fun e => e == 3
  valid := fun _ => true
  linkEdges := fun v =>
    if v = 0 then [0, 2, 3] else if v = 1 then [0, 1] else if v = 2 then [1, 2]
    else if v = 5 then [3] else []
  edges := [0, 1, 2, 3]

/-- The triangle mesh is well-formed. -/
theorem triMesh_wf : MeshWF triMesh := by
  refine ⟨?_, ?_, ?_⟩
  · intro v e he
    simp only [triMesh] at he ⊢
    split_ifs at he <;> simp_all <;> rcases he with rfl | rfl | rfl <;> decide
  · intro v
    simp only [triMesh]
    split_ifs <;> decide
  · intro v e he
    simp only [triMesh] at he ⊢
    split_ifs at he with h0 h1 h2 h5
    · subst h0; fin_cases he <;> decide
    · subst h1; fin_cases he <;> decide
    · subst h2; fin_cases he <;> decide
    · subst h5; fin_cases he; decide
    · simp at he

/-- C9 counterexample — on `triMesh`, from vertex 0 towards edge 3,
`walk_to_corner` returns `None` although a boundary walk from vertex 0 to a
vertex of edge 3 exists (the triangle walk back to vertex 0, which is itself
incident to edge 3): `None` does not imply that no path exists. -/
theorem walk_to_corner_counterexample :
    walk_to_corner triMesh 0 [3] = none ∧
    NMWalk triMesh 0 [0, 1, 2] 0 ∧ 0 ∈ toVertsOf triMesh [3] := by
  refine ⟨by decide, ?_, by decide⟩
  exact NMWalk.cons (by decide) (by decide) (by decide)
    (NMWalk.cons (by decide) (by decide) (by decide)
      (NMWalk.cons (by decide) (by decide) (by decide) (NMWalk.nil 0)))

theorem walk_to_corner_spec_witness :
    ∃ w, w ∈ toVertsOf triMesh [3] ∧ NMWalk triMesh 1 (List.reverse [0]) w :=
  ((walk_to_corner_spec triMesh triMesh_wf 1 [3]).1 [0] (by decide)).2

end Retopo
